import Mathlib

/-
Verification of the distributed lock extension (src/distributed/lock.py) and of the
peer to peer data exchange helpers (src/distributed/utils_comm.py): a shallow embedding
of the data model and the operations, followed by theorems about them.

Conventions of the embedding:
* Python dicts are association lists (`List (k × v)`) with no duplicate keys; Python sets
  grown by `set.add` are duplicate free lists grown by `setInsert`.
* Fallible code returns `Except PyErr`; a raised Python exception is `Except.error`.
* External effects (the RPC round trips) are oracles passed as function arguments: the
  boolean answer of the scheduler to `lock_acquire`, the per address outcome of
  `get_data_from_worker`, the result of `random.choice`.
-/

/-- The Python exceptions raised by the modelled code. -/
inductive PyErr where
  | typeError
  | valueError
  | keyError
  | indexError
  | assertionError
  | zeroDivisionError
deriving DecidableEq, Repr

section Helpers

variable {α β : Type} [DecidableEq α]

/-- Association list lookup: Python `d.get(k)` / `k in d`. -/
def alistLookup : List (α × β) → α → Option β
  | [], _ => none
  | p :: rest, k => if p.1 = k then some p.2 else alistLookup rest k

/-- Association list deletion: Python `del d[k]` (for duplicate free keys). -/
def alistErase (l : List (α × β)) (k : α) : List (α × β) :=
  l.filter (fun p => decide (p.1 ≠ k))

/-- Dict assignment `d[k] = v`: overwrite the binding if the key is present, otherwise
append a new binding (insertion ordered, like a Python dict). -/
def dictSet (l : List (α × β)) (k : α) (v : β) : List (α × β) :=
  if (alistLookup l k).isSome then l.map (fun p => if p.1 = k then (k, v) else p)
  else l ++ [(k, v)]

/-- Set insertion `s.add(a)`: append the element unless already present. -/
def setInsert (l : List α) (a : α) : List α :=
  if a ∈ l then l else l ++ [a]

/-- `defaultdict(list)` bucket append: `d[a].append(b)`. -/
def bucketAdd (d : List (α × List β)) (a : α) (b : β) : List (α × List β) :=
  if (alistLookup d a).isSome then
    d.map (fun p => if p.1 = a then (p.1, p.2 ++ [b]) else p)
  else d ++ [(a, [b])]

end Helpers

/- ------------------------------------------------------------------ -/
/- src/distributed/lock.py                                             -/
/- ------------------------------------------------------------------ -/

section LockModel

variable {N I E : Type} [DecidableEq N] [DecidableEq I]

/-- Scheduler side state of LockExtension (lock.py lines 27 to 29): `ids` maps a held
lock name to the id of the holder (`self.ids = dict()`), and `events` maps a lock name to
the FIFO deque of waiter events (`self.events = defaultdict(deque)`; an absent entry
stands for the default empty deque). Lock names have an abstract type `N`, so the
normalisation `if isinstance(name, list): name = tuple(name)` at the top of acquire and
release is outside the model. Events are compared by object identity, so an abstract
type `E` with decidable equality stands for them. -/
structure LockState (N I E : Type) where
  ids : List (N × I)
  events : List (N × List E)
deriving DecidableEq, Repr

/-- Embeds LockExtension.release (lock.py lines 66 to 76). Returns the outcome, the
scheduler state afterwards, and the waiter event that was woken through
`self.scheduler.loop.add_callback(self.events[name][0].set)`, if any. The source raises
ValueError before mutating anything when `self.ids.get(name) != id`, so on that path the
state comes back unchanged and no waiter is woken. Otherwise the holder entry is
deleted; then `if self.events[name]:` wakes the head of the deque without popping it,
and `else: del self.events[name]` discards the (created or existing) empty deque. -/
def LockExtension.release (st : LockState N I E) (name : N) (id : I) :
    Except PyErr Unit × LockState N I E × Option E :=
  if alistLookup st.ids name ≠ some id then
    (.error .valueError, st, none)
  else
    let ids' := alistErase st.ids name
    match (alistLookup st.events name).getD [] with
    | [] => (.ok (), ⟨ids', alistErase st.events name⟩, none)
    | e :: _ => (.ok (), ⟨ids', st.events⟩, some e)

/-- Embeds the waiter enqueue step of the wait loop of LockExtension.acquire (lock.py
lines 44 to 45): `event = tornado.locks.Event(); self.events[name].append(event)`. The
argument `e` is the freshly created event, identified by its object identity. -/
def LockExtension.enqueueWaiter (q : List Nat) (e : Nat) : List Nat := q ++ [e]

/-- Embeds the timeout path of the wait loop of LockExtension.acquire (lock.py lines
50 to 59): `except gen.TimeoutError: result = False; break` followed by the finally
block `event2 = self.events[name].popleft(); assert event is event2`. `popleft` on an
empty deque raises IndexError; the assert raises AssertionError when the event popped
from the head of the deque is not the event of the timed out waiter itself. When the
assert passes, the waiter leaves acquire with result False and the queue lost its head. -/
def LockExtension.acquireTimeoutStep (q : List Nat) (event : Nat) :
    Except PyErr (List Nat × Bool) :=
  match q with
  | [] => .error .indexError
  | e2 :: rest => if e2 = event then .ok (rest, false) else .error .assertionError

/-- Client side lock handle (lock.py lines 95 to 99): only the local `_locked` flag
matters to the modelled operations; `name` and `id` are fixed at construction and only
forwarded to the scheduler. -/
structure Lock where
  _locked : Bool
deriving DecidableEq, Repr

/-- Embeds Lock.locked (lock.py lines 147 to 148). -/
def Lock.locked (h : Lock) : Bool := h._locked

/-- Embeds Lock.acquire (lock.py lines 102 to 135). A non blocking call with an explicit
timeout raises ValueError; a non blocking call otherwise proceeds with timeout 0. The
scheduler round trip `result = self.client.sync(self.client.scheduler.lock_acquire, ...)`
is an external call whose boolean answer is the oracle `syncResult`. After the round
trip the source runs `self._locked = True` unconditionally and returns `result`. -/
def Lock.acquire (h : Lock) (blocking : Bool) (timeout : Option Nat) (syncResult : Bool) :
    Except PyErr (Bool × Lock) :=
  if !blocking && timeout.isSome then .error .valueError
  else .ok (syncResult, { h with _locked := true })

end LockModel

/- ------------------------------------------------------------------ -/
/- src/distributed/utils_comm.py : values, WrappedKey, pack and unpack -/
/- ------------------------------------------------------------------ -/

/-- The nested Python values walked by unpack_remotedata and pack_data: scalars, the
`collection_types = (tuple, list, set, frozenset)` of utils_comm.py line 154, dicts, and
WrappedKey instances (`objId` is the object identity of the instance, `key` its `.key`
attribute). Sets and dicts are represented by their element list in iteration order.
SubgraphCallable heads (the special case of the tuple branch of unpack_remotedata) are
outside this value grammar, so that branch of the source is never taken here. -/
inductive PyVal where
  | none
  | bool (b : Bool)
  | int (n : Int)
  | str (s : String)
  | tuple (xs : List PyVal)
  | list (xs : List PyVal)
  | set (xs : List PyVal)
  | frozenset (xs : List PyVal)
  | dict (ps : List (PyVal × PyVal))
  | wrapped (objId : Nat) (key : PyVal)

/-- A WrappedKey instance (utils_comm.py lines 90 to 105): `objId` models the object
identity `id(self)`, `key` the `.key` attribute set by `__init__`. The class body defines
only `__init__` and `__repr__`. -/
structure WrappedKey where
  objId : Nat
  key : PyVal

/-- Equality of WrappedKey instances. The class defines no `__eq__`, so Python falls back
to the default `object.__eq__`, which is object identity. -/
def WrappedKey.pyEq (a b : WrappedKey) : Bool := a.objId == b.objId

/-- Hash of a WrappedKey instance. The class defines no `__hash__`, so Python falls back
to the default hash, a function of the object identity alone. -/
def WrappedKey.pyHash (a : WrappedKey) : Nat := a.objId

mutual

/-- Python `==` on the modelled values: structural equality. -/
def pyBeq : PyVal → PyVal → Bool
  | .none, .none => true
  | .bool a, .bool b => a == b
  | .int a, .int b => a == b
  | .str a, .str b => a == b
  | .tuple a, .tuple b => pyBeqList a b
  | .list a, .list b => pyBeqList a b
  | .set a, .set b => pyBeqList a b
  | .frozenset a, .frozenset b => pyBeqList a b
  | .dict a, .dict b => pyBeqPairs a b
  | .wrapped i k, .wrapped j l => i == j && pyBeq k l
  | _, _ => false

def pyBeqList : List PyVal → List PyVal → Bool
  | [], [] => true
  | x :: xs, y :: ys => pyBeq x y && pyBeqList xs ys
  | _, _ => false

def pyBeqPairs : List (PyVal × PyVal) → List (PyVal × PyVal) → Bool
  | [], [] => true
  | (k, v) :: ps, (l, w) :: qs => pyBeq k l && pyBeq v w && pyBeqPairs ps qs
  | _, _ => false

end

mutual

/-- Whether `hash(o)` succeeds: lists, dicts and sets are unhashable (their `hash` raises
TypeError); tuples and frozensets hash their elements; scalars and WrappedKey instances
(default identity hash) are hashable. -/
def hashable : PyVal → Bool
  | .list _ => false
  | .dict _ => false
  | .set _ => false
  | .tuple xs => hashableList xs
  | .frozenset xs => hashableList xs
  | _ => true

def hashableList : List PyVal → Bool
  | [] => true
  | x :: xs => hashable x && hashableList xs

end

/-- Lookup in a Python dict keyed by values, comparing keys with Python `==`. -/
def pyLookup : List (PyVal × PyVal) → PyVal → Option PyVal
  | [], _ => none
  | p :: rest, o => if pyBeq p.1 o then some p.2 else pyLookup rest o

/-- Models the guarded membership test of pack_data (utils_comm.py lines 259 to 264):
`o in d` and `d[o]` first compute `hash(o)`, which raises TypeError exactly when `o` is
unhashable; otherwise the lookup yields the bound value or a miss. `isinstance(o,
key_types)` with the default `key_types=object` is always true and is elided. -/
def dictGet (d : List (PyVal × PyVal)) (o : PyVal) : Except PyErr (Option PyVal) :=
  if hashable o then .ok (pyLookup d o) else .error .typeError

mutual

/-- Embeds pack_data (utils_comm.py lines 239 to 271) with the default
`key_types=object`. The try block returns `d[o]` on a membership hit; the
`except TypeError: pass` clause catches exactly the TypeError of the membership test and
falls through to the rebuild; any other exception would propagate. -/
def pack_data (o : PyVal) (d : List (PyVal × PyVal)) : Except PyErr PyVal :=
  match dictGet d o with
  | .ok (some v) => .ok v
  | .ok Option.none => pack_data_rest o d
  | .error PyErr.typeError => pack_data_rest o d
  | .error e => .error e
termination_by (sizeOf o, 1)

/-- The fall through part of pack_data after the guarded lookup: `typ in
collection_types` rebuilds the collection as `typ([pack_data(x, d) for x in o])`, `typ
is dict` rebuilds the dict with packed values and untouched keys, anything else is
returned unchanged. The `set` and `frozenset` constructors hash every element of the
packed list, so they raise TypeError when the known data mapping substituted an
unhashable value for an element; this raise is outside the try block around the
membership test and propagates. The `tuple` and `list` constructors and the dict
comprehension hash nothing (the dict keys are reused, not recomputed). -/
def pack_data_rest (o : PyVal) (d : List (PyVal × PyVal)) : Except PyErr PyVal :=
  match o with
  | .tuple xs => (pack_list xs d).map PyVal.tuple
  | .list xs => (pack_list xs d).map PyVal.list
  | .set xs =>
    match pack_list xs d with
    | .error e => .error e
    | .ok ys => if hashableList ys then .ok (.set ys) else .error .typeError
  | .frozenset xs =>
    match pack_list xs d with
    | .error e => .error e
    | .ok ys => if hashableList ys then .ok (.frozenset ys) else .error .typeError
  | .dict ps => (pack_pairs ps d).map PyVal.dict
  | _ => .ok o
termination_by (sizeOf o, 0)

/-- `[pack_data(x, d, key_types=key_types) for x in o]`. -/
def pack_list (xs : List PyVal) (d : List (PyVal × PyVal)) : Except PyErr (List PyVal) :=
  match xs with
  | [] => .ok []
  | x :: rest =>
    match pack_data x d with
    | .error e => .error e
    | .ok y =>
      match pack_list rest d with
      | .error e => .error e
      | .ok ys => .ok (y :: ys)
termination_by (sizeOf xs, 1)

/-- `{k: pack_data(v, d, key_types=key_types) for k, v in o.items()}`. -/
def pack_pairs (ps : List (PyVal × PyVal)) (d : List (PyVal × PyVal)) :
    Except PyErr (List (PyVal × PyVal)) :=
  match ps with
  | [] => .ok []
  | (k, v) :: rest =>
    match pack_data v d with
    | .error e => .error e
    | .ok w =>
      match pack_pairs rest d with
      | .error e => .error e
      | .ok qs => .ok ((k, w) :: qs)
termination_by (sizeOf ps, 1)

end

/-- `myset.add(o)` for the set of discovered WrappedKey instances: a Python set holds its
members by hash and equality, which for WrappedKey is object identity. -/
def wkInsert (s : List WrappedKey) (x : WrappedKey) : List WrappedKey :=
  if s.any (fun w => w.objId == x.objId) then s else s ++ [x]

mutual

/-- Embeds unpack_remotedata(o, byte_keys=False, myset) (utils_comm.py lines 157 to 236)
for a non None `myset`, threading the accumulated set explicitly. The tuple branch first
checks `type(o[0]) is SubgraphCallable`; no SubgraphCallable exists in the value grammar,
so the generic rebuild `tuple(unpack_remotedata(item, byte_keys, myset) for item in o)`
always runs. Empty collections are returned as is. The dict branch unpacks the values
and rezips them with the untouched keys, which is pairwise unpacking of the values. The
WrappedKey branch adds the instance to `myset` and returns its key (`byte_keys` is False,
so `tokey` is not applied). -/
def unpack_remotedata_aux : PyVal → List WrappedKey → PyVal × List WrappedKey
  | .tuple [], s => (.tuple [], s)
  | .tuple (x :: xs), s =>
    let r := unpack_list (x :: xs) s
    (.tuple r.1, r.2)
  | .list [], s => (.list [], s)
  | .list (x :: xs), s =>
    let r := unpack_list (x :: xs) s
    (.list r.1, r.2)
  | .set [], s => (.set [], s)
  | .set (x :: xs), s =>
    let r := unpack_list (x :: xs) s
    (.set r.1, r.2)
  | .frozenset [], s => (.frozenset [], s)
  | .frozenset (x :: xs), s =>
    let r := unpack_list (x :: xs) s
    (.frozenset r.1, r.2)
  | .dict [], s => (.dict [], s)
  | .dict (p :: ps), s =>
    let r := unpack_pairs (p :: ps) s
    (.dict r.1, r.2)
  | .wrapped i k, s => (k, wkInsert s ⟨i, k⟩)
  | o, s => (o, s)

def unpack_list : List PyVal → List WrappedKey → List PyVal × List WrappedKey
  | [], s => ([], s)
  | x :: xs, s =>
    let r := unpack_remotedata_aux x s
    let rs := unpack_list xs r.2
    (r.1 :: rs.1, rs.2)

def unpack_pairs : List (PyVal × PyVal) → List WrappedKey →
    List (PyVal × PyVal) × List WrappedKey
  | [], s => ([], s)
  | p :: ps, s =>
    let r := unpack_remotedata_aux p.2 s
    let rs := unpack_pairs ps r.2
    ((p.1, r.1) :: rs.1, rs.2)

end

/-- Embeds the top level call unpack_remotedata(o) with the defaults `byte_keys=False`,
`myset=None` (utils_comm.py lines 190 to 193): create the empty set, recurse, and return
the rebuilt value together with the set of discovered WrappedKey instances. -/
def unpack_remotedata (o : PyVal) : PyVal × List WrappedKey :=
  unpack_remotedata_aux o []

mutual

/-- A Python constructible value free of WrappedKey instances anywhere, dict keys
included. Constructability only constrains sets and frozensets: a Python set or
frozenset cannot hold an unhashable element (its constructor would have raised
TypeError), so every value of the claim domain — values built in Python from scalars,
tuples, lists, sets, frozensets and dicts — satisfies the hashability condition. -/
def refFree : PyVal → Bool
  | .wrapped _ _ => false
  | .tuple xs => refFreeList xs
  | .list xs => refFreeList xs
  | .set xs => hashableList xs && refFreeList xs
  | .frozenset xs => hashableList xs && refFreeList xs
  | .dict ps => refFreePairs ps
  | _ => true

def refFreeList : List PyVal → Bool
  | [] => true
  | x :: xs => refFree x && refFreeList xs

def refFreePairs : List (PyVal × PyVal) → Bool
  | [] => true
  | p :: ps => refFree p.1 && refFree p.2 && refFreePairs ps

end

mutual

/-- A value containing no set and no frozenset anywhere, dict keys included: on these
values the rebuild of pack_data never invokes the hashing set or frozenset
constructor. -/
def setFree : PyVal → Bool
  | .set _ => false
  | .frozenset _ => false
  | .tuple xs => setFreeList xs
  | .list xs => setFreeList xs
  | .dict ps => setFreePairs ps
  | _ => true

def setFreeList : List PyVal → Bool
  | [] => true
  | x :: xs => setFree x && setFreeList xs

def setFreePairs : List (PyVal × PyVal) → Bool
  | [] => true
  | p :: ps => setFree p.1 && setFree p.2 && setFreePairs ps

end

/- ------------------------------------------------------------------ -/
/- src/distributed/utils_comm.py : scatter_to_workers                  -/
/- ------------------------------------------------------------------ -/

section ScatterModel

variable {A K V : Type} [DecidableEq A] [DecidableEq K]

/-- `workers = list(concat([w] * nc for w, nc in nthreads.items()))` (utils_comm.py line
124): the capacity weighted address sequence, each address repeated once per thread. -/
def capacityWeighted (nthreads : List (A × Nat)) : List A :=
  (nthreads.map (fun p => List.replicate p.2 p.1)).flatten

/-- The values computed by a successful scatter_to_workers call before the RPC fan out:
`names` is the key list, `assignment` the zipped list `L = list(zip(worker_iter, names,
data))`, `batches` the per address dict `d`, and `whoHas` the per key destination lists
`{k: [w for w, _, _ in v] for k, v in groupby(1, L).items()}`. -/
structure ScatterResult (A K V : Type) where
  names : List K
  assignment : List (A × K × V)
  batches : List (A × List (K × V))
  whoHas : List (K × List A)

/-- Embeds scatter_to_workers (utils_comm.py lines 111 to 151). The module level mutable
cell `_round_robin_counter = [0]` (line 108) is threaded explicitly: `counter` is its
value on entry and the second component of the result its value on return. The third
component lists the addresses the call opens connections to (the keys of `d`); the
`update_data` fan out and the `nbytes` merge consume external responses and are not
modelled. The error order follows the source: `names, data = list(zip(*data.items()))`
raises ValueError when `data` is empty (unpacking an empty zip), before
`drop(_round_robin_counter[0] % len(workers), cycle(workers))` raises ZeroDivisionError
when the worker sequence is empty; both raises happen before the counter update
`_round_robin_counter[0] += len(data)` and before any connection is opened. The element
of `drop(offset, cycle(workers))` at position j is `workers[(offset + j) % len(workers)]`,
which is how the infinite round robin iterator is rendered here. -/
def scatter_to_workers (nthreads : List (A × Nat)) (data : List (K × V))
    (counter : Nat) : Except PyErr (ScatterResult A K V) × Nat × List A :=
  match capacityWeighted nthreads, data with
  | _, [] => (.error .valueError, counter, [])
  | [], _ :: _ => (.error .zeroDivisionError, counter, [])
  | w :: ws, kv :: kvs =>
    let workers := w :: ws
    let dat := kv :: kvs
    let offset := counter % workers.length
    let L := dat.enum.map (fun jkv =>
      (workers.getD ((offset + jkv.1) % workers.length) w, jkv.2.1, jkv.2.2))
    let d := L.foldl (fun acc t => bucketAdd acc t.1 (t.2.1, t.2.2)) []
    let wh := L.foldl (fun acc t => bucketAdd acc t.2.1 t.1) []
    (.ok ⟨dat.map Prod.fst, L, d, wh⟩, counter + dat.length, d.map Prod.fst)

end ScatterModel

/- ------------------------------------------------------------------ -/
/- src/distributed/utils_comm.py : gather_from_workers                 -/
/- ------------------------------------------------------------------ -/

section GatherModel

variable {K A V : Type} [DecidableEq K] [DecidableEq A]

/-- The mutable state of the retry loop of gather_from_workers (utils_comm.py lines
33 to 41): `results`, `all_bad_keys`, `bad_addresses` and `missing_workers`. -/
structure GatherState (K A V : Type) where
  results : List (K × V)
  allBadKeys : List K
  badAddresses : List A
  missingWorkers : List A

/-- The state on entry of the loop: everything empty. -/
def initGatherState : GatherState K A V := ⟨[], [], [], []⟩

/-- `list(addresses - bad_addresses)`: the candidate pool of a key. -/
def candidatePool (bad : List A) (as : List A) : List A :=
  as.filter (fun a => decide (a ∉ bad))

/-- The `rev` dict built by the partition loop (utils_comm.py lines 43 to 51): every key
not yet in `results` whose candidate pool is nonempty is paired with the address
`random.choice(list(addresses - bad_addresses))`, modelled by the oracle `choice`. -/
def revPass (whoHas : List (K × List A)) (st : GatherState K A V)
    (choice : List A → A) : List (K × A) :=
  whoHas.filterMap (fun p =>
    if (alistLookup st.results p.1).isSome then none
    else
      let pool := candidatePool st.badAddresses p.2
      if pool.isEmpty then none else some (p.1, choice pool))

/-- The `bad_keys` set of the same partition loop: keys not yet in `results` whose
candidate pool is empty, for which `random.choice` raises IndexError. -/
def badKeysPass (whoHas : List (K × List A)) (st : GatherState K A V) : List K :=
  whoHas.filterMap (fun p =>
    if (alistLookup st.results p.1).isSome then none
    else if (candidatePool st.badAddresses p.2).isEmpty then some p.1 else none)

/-- The per address batches `d` (`d[addr].append(key)`), built from `rev` in key order. -/
def batchesOf (rev : List (K × A)) : List (A × List K) :=
  rev.foldl (fun acc p => bucketAdd acc p.2 p.1) []

/-- The fetch fan out (utils_comm.py lines 54 to 76): one `get_data_from_worker` call per
batch, modelled by the oracle `fetchi`; `none` stands for a raised EnvironmentError,
which adds the address to `missing_workers`, while a response merges its data into
`response`. Returns the merged `response` dict and the grown `missing_workers`. -/
def fetchPass (fetchi : A → List K → Option (List (K × V)))
    (d : List (A × List K)) (missing0 : List A) : List (K × V) × List A :=
  d.foldl (fun acc p =>
    match fetchi p.1 p.2 with
    | none => (acc.1, setInsert acc.2 p.1)
    | some r => (r.foldl (fun dd kv => dictSet dd kv.1 kv.2) acc.1, acc.2))
    ([], missing0)

/-- One iteration of the while loop of gather_from_workers (utils_comm.py lines 41 to
81): partition the still missing keys, fan the fetches out, record `all_bad_keys`, add
`{v for k, v in rev.items() if k not in response}` to `bad_addresses`, and merge the
response into `results`. -/
def gatherIter (whoHas : List (K × List A)) (choice : List A → A)
    (fetchi : A → List K → Option (List (K × V))) (st : GatherState K A V) :
    GatherState K A V :=
  let rev := revPass whoHas st choice
  let badK := badKeysPass whoHas st
  let allBad' := badK.foldl setInsert st.allBadKeys
  let fp := fetchPass fetchi (batchesOf rev) st.missingWorkers
  let response := fp.1
  let badA' := (rev.filterMap (fun p =>
      if (alistLookup response p.1).isSome then none else some p.2)).foldl
      setInsert st.badAddresses
  let results' := response.foldl (fun dd kv => dictSet dd kv.1 kv.2) st.results
  ⟨results', allBad', badA', fp.2⟩

/-- The loop condition `len(results) + len(all_bad_keys) < len(who_has)`. -/
def gatherGuard (whoHas : List (K × List A)) (st : GatherState K A V) : Bool :=
  decide (st.results.length + st.allBadKeys.length < whoHas.length)

/-- The while loop of gather_from_workers, run on explicit fuel; `i` numbers the
iterations so that the fetch oracle may answer differently over time. `none` means the
fuel ran out with the loop condition still true. -/
def gatherLoop (whoHas : List (K × List A)) (choice : List A → A)
    (fetch : Nat → A → List K → Option (List (K × V))) (fuel : Nat) (i : Nat)
    (st : GatherState K A V) : Option (GatherState K A V) :=
  if gatherGuard whoHas st then
    match fuel with
    | 0 => none
    | fuel' + 1 =>
      gatherLoop whoHas choice fetch fuel' (i + 1) (gatherIter whoHas choice (fetch i) st)
  else some st

/-- The termination measure of the loop: for every key of `who_has` that is neither
resolved nor recorded unobtainable, one unit plus the size of its remaining candidate
pool. -/
def keyWeight (st : GatherState K A V) (p : K × List A) : Nat :=
  if (alistLookup st.results p.1).isSome || decide (p.1 ∈ st.allBadKeys) then 0
  else (candidatePool st.badAddresses p.2).length + 1

/-- The sum of the key weights over `who_has`. -/
def gatherMeasure (whoHas : List (K × List A)) (st : GatherState K A V) : Nat :=
  (whoHas.map (keyWeight st)).sum

/-- Embeds gather_from_workers (utils_comm.py lines 15 to 87). `who_has` maps each
requested key to its candidate address list (`set(v)` in the source; list order only
feeds the `choice` oracle). `choice` models `random.choice`; `fetch i a ks` models the
`get_data_from_worker` call of iteration `i` to address `a` for the key batch `ks`,
returning `none` when the peer raises EnvironmentError. The `rpc` handle bookkeeping
(`rpcs` and `close_rpc` in the finally block) manages connections and has no effect on
the returned values, so it is not modelled. The while loop runs on fuel
`gatherMeasure + 1`; the termination theorem proves this fuel is never exhausted.
Returns `(results, {k: list(original_who_has[k]) for k in all_bad_keys},
list(missing_workers))`. -/
def gather_from_workers (whoHas : List (K × List A)) (choice : List A → A)
    (fetch : Nat → A → List K → Option (List (K × V))) :
    Option (List (K × V) × List (K × List A) × List A) :=
  match gatherLoop whoHas choice fetch
      (gatherMeasure whoHas (initGatherState : GatherState K A V) + 1) 0
      initGatherState with
  | none => none
  | some st =>
    some (st.results, st.allBadKeys.map (fun k => (k, (alistLookup whoHas k).getD [])),
      st.missingWorkers)

/-- The loop invariant of gather_from_workers used by the termination and exit count
proofs: the resolved dict and the unobtainable set are duplicate free, every resolved or
unobtainable key is a requested key, no key is both resolved and unobtainable, and every
unobtainable key has an exhausted candidate pool. -/
structure GatherInv (whoHas : List (K × List A)) (st : GatherState K A V) : Prop where
  nodupRes : (st.results.map Prod.fst).Nodup
  nodupBad : st.allBadKeys.Nodup
  resSub : ∀ k, (alistLookup st.results k).isSome = true →
    (alistLookup whoHas k).isSome = true
  badSub : ∀ k ∈ st.allBadKeys, (alistLookup whoHas k).isSome = true
  badNotRes : ∀ k ∈ st.allBadKeys, (alistLookup st.results k).isSome = false
  badPool : ∀ k ∈ st.allBadKeys,
    candidatePool st.badAddresses ((alistLookup whoHas k).getD []) = []

end GatherModel

/- ------------------------------------------------------------------ -/
/- Proof infrastructure                                                -/
/- ------------------------------------------------------------------ -/

/-- Strong induction on the size of a PyVal, the induction principle used for the nested
value grammar. -/
theorem pyval_strong_ind {P : PyVal → Prop} (v : PyVal)
    (h : ∀ v, (∀ w, sizeOf w < sizeOf v → P w) → P v) : P v := by
  have key : ∀ n, ∀ v : PyVal, sizeOf v < n → P v := by
    intro n
    induction n with
    | zero => intro v hv; omega
    | succ n ih => intro v hv; exact h v (fun w hw => ih w (by omega))
  exact key (sizeOf v + 1) v (by omega)

theorem pyListElem_sizeOf {x : PyVal} {xs : List PyVal} (hx : x ∈ xs) :
    sizeOf x < 1 + sizeOf xs := by
  have := List.sizeOf_lt_of_mem hx
  omega

theorem pyPairSnd_sizeOf {p : PyVal × PyVal} {ps : List (PyVal × PyVal)} (hp : p ∈ ps) :
    sizeOf p.2 < 1 + sizeOf ps := by
  have h1 := List.sizeOf_lt_of_mem hp
  obtain ⟨a, b⟩ := p
  simp at h1 ⊢
  omega

theorem pyPairFst_sizeOf {p : PyVal × PyVal} {ps : List (PyVal × PyVal)} (hp : p ∈ ps) :
    sizeOf p.1 < 1 + sizeOf ps := by
  have h1 := List.sizeOf_lt_of_mem hp
  obtain ⟨a, b⟩ := p
  simp at h1 ⊢
  omega

/- ------------------------------------------------------------------ -/
/- C1, C2, C3, C8: locks and WrappedKey                                -/
/- ------------------------------------------------------------------ -/

/-- C1. The claim says a waiter of LockExtension.acquire whose timeout elapses has its
own wait token removed from the queue of the lock name. The code instead pops the head
of the deque: in the reachable state where waiter 1 enqueued event 1 first and waiter 2
then enqueued event 2 (queue [1, 2], both waiting on a held lock), the timeout of
waiter 2 pops event 1 — the token of the other waiter — and the assertion of the source
itself, `assert event is event2`, fails, so acquire raises AssertionError instead of
returning False. -/
theorem c1_timeout_pops_token_of_other_waiter :
    LockExtension.acquireTimeoutStep
        (LockExtension.enqueueWaiter (LockExtension.enqueueWaiter [] 1) 2) 2 =
      .error .assertionError ∧
    (LockExtension.enqueueWaiter (LockExtension.enqueueWaiter [] 1) 2).head? = some 1 :=
  ⟨rfl, rfl⟩

/-- C2. The claim says Lock.acquire marks the local state held exactly when the result
is success, so that locked() equals the returned value. The code runs
`self._locked = True` unconditionally: a non blocking acquire that the scheduler answers
False (lock held elsewhere) returns False yet leaves the handle with locked() = True. -/
theorem c2_failed_acquire_still_marks_locked :
    Lock.acquire ⟨false⟩ false none false = .ok (false, ⟨true⟩) ∧
    Lock.locked ⟨true⟩ = true ∧ Lock.locked ⟨true⟩ ≠ false :=
  ⟨rfl, rfl, by decide⟩

/-- C3 counterexample. Two distinct WrappedKey instances carrying the very same key are
not equal (the source class defines no `__eq__`, so equality is object identity) and
their hashes differ, refuting the claim that equality holds exactly on equal keys and
that hashes agree whenever keys are equal. -/
theorem c3_wrappedkey_equality_not_by_key :
    (WrappedKey.mk 0 (.str "x")).key = (WrappedKey.mk 1 (.str "x")).key ∧
    WrappedKey.pyEq ⟨0, .str "x"⟩ ⟨1, .str "x"⟩ = false ∧
    WrappedKey.pyHash ⟨0, .str "x"⟩ ≠ WrappedKey.pyHash ⟨1, .str "x"⟩ := by
  refine ⟨rfl, rfl, ?_⟩
  simp [WrappedKey.pyHash]

/-- C3 amended. Equality and hash of WrappedKey are by object identity, not by the key
field: two handles are equal exactly when they are the same object, and their hashes
agree exactly when they are the same object. -/
theorem c3_wrappedkey_equality_by_identity (a b : WrappedKey) :
    (WrappedKey.pyEq a b = true ↔ a.objId = b.objId) ∧
    (WrappedKey.pyHash a = WrappedKey.pyHash b ↔ a.objId = b.objId) := by
  constructor
  · simp [WrappedKey.pyEq]
  · simp [WrappedKey.pyHash]

/-- C8. LockExtension.release raises ValueError whenever the recorded holder of the lock
name is not the releasing id — including when the name is not held at all, since
`self.ids.get(name)` then yields no holder — and on that path the holder map and the
waiter queues are unchanged and no waiter is woken. -/
theorem c8_release_by_nonholder_rejected {N I E : Type} [DecidableEq N] [DecidableEq I]
    (st : LockState N I E) (name : N) (id : I)
    (h : alistLookup st.ids name ≠ some id) :
    LockExtension.release st name id = (.error .valueError, st, none) := by
  unfold LockExtension.release
  rw [if_pos h]

/-- C8 witness: name 0 is held by id 1 and has a waiter queued; a release by id 2 fails
with ValueError and the scheduler state is untouched and no waiter is woken. -/
theorem c8_release_witness :
    LockExtension.release (⟨[(0, 1)], [(0, [7])]⟩ : LockState Nat Nat Nat) 0 2 =
      (.error .valueError, ⟨[(0, 1)], [(0, [7])]⟩, none) :=
  c8_release_by_nonholder_rejected _ 0 2 (by decide)

/- ------------------------------------------------------------------ -/
/- C7, C10: scatter_to_workers                                         -/
/- ------------------------------------------------------------------ -/

/-- C10. scatter_to_workers fails on degenerate input before contacting any worker (the
contacted list is empty) and without advancing the round robin counter: an empty data
mapping raises ValueError from unpacking zero (name, value) pairs, and nonempty data
with an empty nthreads mapping raises ZeroDivisionError from taking the round robin
offset modulo the length zero worker sequence. -/
theorem c10_scatter_degenerate_inputs {A K V : Type} [DecidableEq A] [DecidableEq K]
    (nthreads : List (A × Nat)) (data : List (K × V)) (c : Nat) (hd : data ≠ []) :
    scatter_to_workers nthreads ([] : List (K × V)) c
        = ((.error .valueError : Except PyErr (ScatterResult A K V)), c, ([] : List A)) ∧
    scatter_to_workers ([] : List (A × Nat)) data c
        = ((.error .zeroDivisionError : Except PyErr (ScatterResult A K V)), c,
            ([] : List A)) := by
  constructor
  · cases h : capacityWeighted nthreads with
    | nil => simp [scatter_to_workers, h]
    | cons w ws => simp [scatter_to_workers, h]
  · cases data with
    | nil => exact absurd rfl hd
    | cons kv kvs => simp [scatter_to_workers, capacityWeighted]

/-- C10 witness: one worker with two threads but no data raises ValueError; one data
item but no workers raises ZeroDivisionError; both leave the counter at 5 and contact
nobody. -/
theorem c10_scatter_witness :
    scatter_to_workers [((0 : Nat), 2)] ([] : List (Nat × Nat)) 5
        = (.error .valueError, 5, []) ∧
    scatter_to_workers ([] : List (Nat × Nat)) [((3 : Nat), (4 : Nat))] 5
        = (.error .zeroDivisionError, 5, []) :=
  c10_scatter_degenerate_inputs [((0 : Nat), 2)] [((3 : Nat), (4 : Nat))] 5 (by decide)

/-- C7. scatter_to_workers distributes the (name, value) pairs round robin over the
capacity weighted worker sequence: the j-th item goes to the worker at position
(counter + j) modulo the sequence length — the rotation starts at the process wide
counter modulo the length — and the call advances the counter by exactly the number of
items scattered, so a later call continues the rotation where this one stopped. -/
theorem c7_scatter_round_robin {A K V : Type} [DecidableEq A] [DecidableEq K]
    (nthreads : List (A × Nat)) (data : List (K × V)) (c : Nat) (w : A) (ws : List A)
    (hw : capacityWeighted nthreads = w :: ws) (hd : data ≠ []) :
    (scatter_to_workers nthreads data c).2.1 = c + data.length ∧
    ∃ res, (scatter_to_workers nthreads data c).1 = .ok res ∧
      res.names = data.map Prod.fst ∧
      ∀ j kv, data.get? j = some kv →
        res.assignment.get? j =
          some ((w :: ws).getD ((c + j) % (w :: ws).length) w, kv.1, kv.2) := by
  cases data with
  | nil => exact absurd rfl hd
  | cons kv0 kvs =>
    simp only [scatter_to_workers, hw]
    constructor
    · trivial
    · refine ⟨_, rfl, rfl, ?_⟩
      intro j kv hj
      rw [List.get?_map, List.get?_enum, hj]
      simp [Nat.mod_add_mod]

/-- C7 witness: two workers with thread counts {A0: 2, B1: 1} give the capacity weighted
sequence [0, 0, 1]; with the counter at 4, the three items land on workers 0, 1, 0
(positions 4, 5, 6 of the rotation) and the counter advances to 7, so the next call
starts at position 7 of the rotation instead of restarting at worker 0. -/
theorem c7_scatter_witness :
    (scatter_to_workers [((0 : Nat), 2), (1, 1)]
        [((10 : Nat), (7 : Nat)), (11, 8), (12, 9)] 4).2.1 = 7 ∧
    ∃ res, (scatter_to_workers [((0 : Nat), 2), (1, 1)]
        [((10 : Nat), (7 : Nat)), (11, 8), (12, 9)] 4).1 = .ok res ∧
      res.assignment.get? 0 = some (0, 10, 7) ∧
      res.assignment.get? 1 = some (1, 11, 8) ∧
      res.assignment.get? 2 = some (0, 12, 9) := by
  have h := c7_scatter_round_robin [((0 : Nat), 2), (1, 1)]
    [((10 : Nat), (7 : Nat)), (11, 8), (12, 9)] 4 0 [0, 1] (by decide) (by decide)
  obtain ⟨h1, res, hok, _, hall⟩ := h
  exact ⟨h1, res, hok, hall 0 (10, 7) rfl, hall 1 (11, 8) rfl, hall 2 (12, 9) rfl⟩

/- ------------------------------------------------------------------ -/
/- C4, C9: pack_data and unpack_remotedata                             -/
/- ------------------------------------------------------------------ -/

/-- With an empty known data mapping the guarded lookup of pack_data never hits (a miss
for hashable values, a caught TypeError for unhashable ones), so pack_data falls through
to the rebuild. -/
theorem pack_data_nil_eq_rest (o : PyVal) : pack_data o [] = pack_data_rest o [] := by
  rw [pack_data]
  cases hh : hashable o <;> simp [dictGet, hh, pyLookup]

theorem pack_list_nil {xs : List PyVal}
    (ih : ∀ x ∈ xs, pack_data x [] = .ok x) : pack_list xs [] = .ok xs := by
  induction xs with
  | nil => rw [pack_list]
  | cons x rest ihr =>
    have h1 := ih x (List.mem_cons_self x rest)
    have h2 := ihr (fun y hy => ih y (List.mem_cons_of_mem _ hy))
    rw [pack_list, h1, h2]

theorem pack_pairs_nil {ps : List (PyVal × PyVal)}
    (ih : ∀ p ∈ ps, pack_data p.2 [] = .ok p.2) : pack_pairs ps [] = .ok ps := by
  induction ps with
  | nil => rw [pack_pairs]
  | cons p rest ihr =>
    obtain ⟨k, v⟩ := p
    have h1 := ih (k, v) (List.mem_cons_self _ rest)
    have h2 := ihr (fun q hq => ih q (List.mem_cons_of_mem _ hq))
    rw [pack_pairs, h1, h2]

theorem refFreeList_mem {xs : List PyVal} (h : refFreeList xs = true) :
    ∀ x ∈ xs, refFree x = true := by
  induction xs with
  | nil => intro x hx; simp at hx
  | cons y ys ih =>
    rw [refFreeList, Bool.and_eq_true] at h
    intro x hx
    rcases List.mem_cons.mp hx with rfl | hmem
    · exact h.1
    · exact ih h.2 x hmem

theorem refFreePairs_mem {ps : List (PyVal × PyVal)} (h : refFreePairs ps = true) :
    ∀ p ∈ ps, refFree p.1 = true ∧ refFree p.2 = true := by
  induction ps with
  | nil => intro p hp; simp at hp
  | cons q qs ih =>
    rw [refFreePairs, Bool.and_eq_true, Bool.and_eq_true] at h
    intro p hp
    rcases List.mem_cons.mp hp with rfl | hmem
    · exact ⟨h.1.1, h.1.2⟩
    · exact ih h.2 p hmem

/-- pack_data with an empty known data mapping rebuilds every value of the claim domain
unchanged: the lookup never hits, the rebuild is the identity, and the hashing set and
frozenset constructors succeed because the elements of a constructible set are
hashable. -/
theorem pack_data_nil : ∀ o : PyVal, refFree o = true → pack_data o [] = .ok o := by
  intro o
  induction o using pyval_strong_ind with
  | _ v ih =>
    intro h
    rw [pack_data_nil_eq_rest]
    cases v with
    | tuple xs =>
      rw [refFree] at h
      rw [pack_data_rest, pack_list_nil (fun x hx =>
        ih x (by simpa using pyListElem_sizeOf hx) (refFreeList_mem h x hx))]
      rfl
    | list xs =>
      rw [refFree] at h
      rw [pack_data_rest, pack_list_nil (fun x hx =>
        ih x (by simpa using pyListElem_sizeOf hx) (refFreeList_mem h x hx))]
      rfl
    | set xs =>
      rw [refFree, Bool.and_eq_true] at h
      rw [pack_data_rest, pack_list_nil (fun x hx =>
        ih x (by simpa using pyListElem_sizeOf hx) (refFreeList_mem h.2 x hx))]
      simp [h.1]
    | frozenset xs =>
      rw [refFree, Bool.and_eq_true] at h
      rw [pack_data_rest, pack_list_nil (fun x hx =>
        ih x (by simpa using pyListElem_sizeOf hx) (refFreeList_mem h.2 x hx))]
      simp [h.1]
    | dict ps =>
      rw [refFree] at h
      rw [pack_data_rest, pack_pairs_nil (fun p hp =>
        ih p.2 (by simpa using pyPairSnd_sizeOf hp) (refFreePairs_mem h p hp).2)]
      rfl
    | none => rw [pack_data_rest] <;> simp
    | bool b => rw [pack_data_rest] <;> simp
    | int n => rw [pack_data_rest] <;> simp
    | str s => rw [pack_data_rest] <;> simp
    | wrapped i k => rw [pack_data_rest] <;> simp

theorem unpack_list_refFree {xs : List PyVal}
    (ih : ∀ x ∈ xs, refFree x = true → ∀ s, unpack_remotedata_aux x s = (x, s))
    (hf : refFreeList xs = true) : ∀ s, unpack_list xs s = (xs, s) := by
  induction xs with
  | nil => intro s; rw [unpack_list]
  | cons x rest ihr =>
    intro s
    rw [refFreeList, Bool.and_eq_true] at hf
    have h1 := ih x (List.mem_cons_self x rest) hf.1 s
    have h2 := ihr (fun y hy => ih y (List.mem_cons_of_mem _ hy)) hf.2
    rw [unpack_list]
    simp only [h1, h2]

theorem unpack_pairs_refFree {ps : List (PyVal × PyVal)}
    (ih : ∀ p ∈ ps, refFree p.2 = true → ∀ s, unpack_remotedata_aux p.2 s = (p.2, s))
    (hf : refFreePairs ps = true) : ∀ s, unpack_pairs ps s = (ps, s) := by
  induction ps with
  | nil => intro s; rw [unpack_pairs]
  | cons p rest ihr =>
    intro s
    rw [refFreePairs, Bool.and_eq_true, Bool.and_eq_true] at hf
    have h1 := ih p (List.mem_cons_self p rest) hf.1.2 s
    have h2 := ihr (fun q hq => ih q (List.mem_cons_of_mem _ hq)) hf.2
    rw [unpack_pairs]
    simp only [h1, h2]

/-- unpack_remotedata leaves a value free of WrappedKey references unchanged and adds
nothing to the accumulated reference set. -/
theorem unpack_aux_refFree (o : PyVal) (h : refFree o = true) :
    ∀ s, unpack_remotedata_aux o s = (o, s) := by
  induction o using pyval_strong_ind with
  | _ v ih =>
    cases v with
    | tuple xs =>
      rw [refFree] at h
      have hl := unpack_list_refFree
        (fun x hx hfx => ih x (by simpa using pyListElem_sizeOf hx) hfx) h
      intro s
      cases xs with
      | nil => rw [unpack_remotedata_aux]
      | cons x rest => rw [unpack_remotedata_aux]; simp only [hl s]
    | list xs =>
      rw [refFree] at h
      have hl := unpack_list_refFree
        (fun x hx hfx => ih x (by simpa using pyListElem_sizeOf hx) hfx) h
      intro s
      cases xs with
      | nil => rw [unpack_remotedata_aux]
      | cons x rest => rw [unpack_remotedata_aux]; simp only [hl s]
    | set xs =>
      rw [refFree, Bool.and_eq_true] at h
      have hl := unpack_list_refFree
        (fun x hx hfx => ih x (by simpa using pyListElem_sizeOf hx) hfx) h.2
      intro s
      cases xs with
      | nil => rw [unpack_remotedata_aux]
      | cons x rest => rw [unpack_remotedata_aux]; simp only [hl s]
    | frozenset xs =>
      rw [refFree, Bool.and_eq_true] at h
      have hl := unpack_list_refFree
        (fun x hx hfx => ih x (by simpa using pyListElem_sizeOf hx) hfx) h.2
      intro s
      cases xs with
      | nil => rw [unpack_remotedata_aux]
      | cons x rest => rw [unpack_remotedata_aux]; simp only [hl s]
    | dict ps =>
      rw [refFree] at h
      have hl := unpack_pairs_refFree
        (fun p hp hfp => ih p.2 (by simpa using pyPairSnd_sizeOf hp) hfp) h
      intro s
      cases ps with
      | nil => rw [unpack_remotedata_aux]
      | cons p rest => rw [unpack_remotedata_aux]; simp only [hl s]
    | wrapped i k => rw [refFree] at h; exact absurd h (by simp)
    | none => intro s; rw [unpack_remotedata_aux] <;> simp
    | bool b => intro s; rw [unpack_remotedata_aux] <;> simp
    | int n => intro s; rw [unpack_remotedata_aux] <;> simp
    | str s0 => intro s; rw [unpack_remotedata_aux] <;> simp

/-- C4. On every value built from scalars, tuples, lists, sets, frozensets and dicts
that contains no WrappedKey reference, unpack_remotedata returns the value with an empty
reference set, and pack_data of the unpacked value with an empty known data mapping
gives the original value back: pack(unpack(x), {}) == x. -/
theorem c4_pack_unpack_roundtrip (x : PyVal) (h : refFree x = true) :
    pack_data (unpack_remotedata x).1 [] = .ok x ∧ (unpack_remotedata x).2 = [] := by
  unfold unpack_remotedata
  rw [unpack_aux_refFree x h []]
  exact ⟨pack_data_nil x h, rfl⟩

/-- C4 witness: a concrete reference free nested value (a list holding an int, a tuple
with a string and a dict) survives the unpack then pack round trip unchanged. -/
theorem c4_roundtrip_witness :
    refFree (.list [.int 1, .tuple [.str "a"], .dict [(.str "k", .none)]]) = true ∧
    pack_data (unpack_remotedata
        (.list [.int 1, .tuple [.str "a"], .dict [(.str "k", .none)]])).1 [] =
      .ok (.list [.int 1, .tuple [.str "a"], .dict [(.str "k", .none)]]) ∧
    (unpack_remotedata
        (.list [.int 1, .tuple [.str "a"], .dict [(.str "k", .none)]])).2 = [] := by
  have hrf : refFree (.list [.int 1, .tuple [.str "a"], .dict [(.str "k", .none)]])
      = true := by
    simp [refFree, refFreeList, refFreePairs]
  have h := c4_pack_unpack_roundtrip _ hrf
  exact ⟨hrf, h.1, h.2⟩

theorem setFreeList_mem {xs : List PyVal} (h : setFreeList xs = true) :
    ∀ x ∈ xs, setFree x = true := by
  induction xs with
  | nil => intro x hx; simp at hx
  | cons y ys ih =>
    rw [setFreeList, Bool.and_eq_true] at h
    intro x hx
    rcases List.mem_cons.mp hx with rfl | hmem
    · exact h.1
    · exact ih h.2 x hmem

theorem setFreePairs_mem {ps : List (PyVal × PyVal)} (h : setFreePairs ps = true) :
    ∀ p ∈ ps, setFree p.1 = true ∧ setFree p.2 = true := by
  induction ps with
  | nil => intro p hp; simp at hp
  | cons q qs ih =>
    rw [setFreePairs, Bool.and_eq_true, Bool.and_eq_true] at h
    intro p hp
    rcases List.mem_cons.mp hp with rfl | hmem
    · exact ⟨h.1.1, h.1.2⟩
    · exact ih h.2 p hmem

theorem pack_list_total {d : List (PyVal × PyVal)} {xs : List PyVal}
    (ih : ∀ x ∈ xs, ∃ v, pack_data x d = .ok v) : ∃ ys, pack_list xs d = .ok ys := by
  induction xs with
  | nil => exact ⟨[], by rw [pack_list]⟩
  | cons x rest ihr =>
    obtain ⟨y, hy⟩ := ih x (List.mem_cons_self x rest)
    obtain ⟨ys, hys⟩ := ihr (fun z hz => ih z (List.mem_cons_of_mem _ hz))
    exact ⟨y :: ys, by rw [pack_list, hy, hys]⟩

theorem pack_pairs_total {d : List (PyVal × PyVal)} {ps : List (PyVal × PyVal)}
    (ih : ∀ p ∈ ps, ∃ v, pack_data p.2 d = .ok v) :
    ∃ qs, pack_pairs ps d = .ok qs := by
  induction ps with
  | nil => exact ⟨[], by rw [pack_pairs]⟩
  | cons p rest ihr =>
    obtain ⟨k, v⟩ := p
    obtain ⟨w, hw⟩ := ih (k, v) (List.mem_cons_self _ rest)
    obtain ⟨qs, hqs⟩ := ihr (fun q hq => ih q (List.mem_cons_of_mem _ hq))
    exact ⟨(k, w) :: qs, by rw [pack_pairs, hw, hqs]⟩

theorem pack_data_rest_total (o : PyVal) (d : List (PyVal × PyVal))
    (hsf : setFree o = true)
    (ih : ∀ w, sizeOf w < sizeOf o → setFree w = true → ∃ v, pack_data w d = .ok v) :
    ∃ v, pack_data_rest o d = .ok v := by
  cases o with
  | tuple xs =>
    rw [setFree] at hsf
    obtain ⟨ys, hys⟩ := pack_list_total (fun x hx =>
      ih x (by simpa using pyListElem_sizeOf hx) (setFreeList_mem hsf x hx))
    exact ⟨.tuple ys, by rw [pack_data_rest, hys]; rfl⟩
  | list xs =>
    rw [setFree] at hsf
    obtain ⟨ys, hys⟩ := pack_list_total (fun x hx =>
      ih x (by simpa using pyListElem_sizeOf hx) (setFreeList_mem hsf x hx))
    exact ⟨.list ys, by rw [pack_data_rest, hys]; rfl⟩
  | dict ps =>
    rw [setFree] at hsf
    obtain ⟨qs, hqs⟩ := pack_pairs_total (fun p hp =>
      ih p.2 (by simpa using pyPairSnd_sizeOf hp) (setFreePairs_mem hsf p hp).2)
    exact ⟨.dict qs, by rw [pack_data_rest, hqs]; rfl⟩
  | set xs =>
    rw [setFree] at hsf
    exact absurd hsf (by simp)
  | frozenset xs =>
    rw [setFree] at hsf
    exact absurd hsf (by simp)
  | none => exact ⟨.none, by rw [pack_data_rest] <;> simp⟩
  | bool b => exact ⟨.bool b, by rw [pack_data_rest] <;> simp⟩
  | int n => exact ⟨.int n, by rw [pack_data_rest] <;> simp⟩
  | str s => exact ⟨.str s, by rw [pack_data_rest] <;> simp⟩
  | wrapped i k => exact ⟨.wrapped i k, by rw [pack_data_rest] <;> simp⟩

/-- pack_data on a value with no set or frozenset anywhere always returns a value. -/
theorem pack_data_total_of_setFree :
    ∀ (o : PyVal) (d : List (PyVal × PyVal)), setFree o = true →
      ∃ v, pack_data o d = .ok v := by
  intro o
  induction o using pyval_strong_ind with
  | _ w ih =>
    intro d hsf
    rw [pack_data]
    unfold dictGet
    cases hh : hashable w with
    | true =>
      cases hl : pyLookup d w with
      | some v => exact ⟨v, rfl⟩
      | none =>
        simpa using pack_data_rest_total w d hsf (fun u hu hsu => ih u hu d hsu)
    | false =>
      simpa using pack_data_rest_total w d hsf (fun u hu hsu => ih u hu d hsu)

theorem pack_list_errors {d : List (PyVal × PyVal)} {xs : List PyVal}
    (ih : ∀ x ∈ xs, ∀ e, pack_data x d = .error e → e = .typeError) :
    ∀ e, pack_list xs d = .error e → e = .typeError := by
  induction xs with
  | nil =>
    intro e he
    rw [pack_list] at he
    simp at he
  | cons x rest ihr =>
    intro e he
    rw [pack_list] at he
    cases hx : pack_data x d with
    | error e1 =>
      rw [hx] at he
      simp only [Except.error.injEq] at he
      subst he
      exact ih x (List.mem_cons_self x rest) e1 hx
    | ok y =>
      rw [hx] at he
      cases hrest : pack_list rest d with
      | error e2 =>
        rw [hrest] at he
        simp only [Except.error.injEq] at he
        subst he
        exact ihr (fun z hz => ih z (List.mem_cons_of_mem _ hz)) e2 hrest
      | ok ys =>
        rw [hrest] at he
        simp at he

theorem pack_pairs_errors {d : List (PyVal × PyVal)} {ps : List (PyVal × PyVal)}
    (ih : ∀ p ∈ ps, ∀ e, pack_data p.2 d = .error e → e = .typeError) :
    ∀ e, pack_pairs ps d = .error e → e = .typeError := by
  induction ps with
  | nil =>
    intro e he
    rw [pack_pairs] at he
    simp at he
  | cons p rest ihr =>
    obtain ⟨k, v⟩ := p
    intro e he
    rw [pack_pairs] at he
    cases hx : pack_data v d with
    | error e1 =>
      rw [hx] at he
      simp only [Except.error.injEq] at he
      subst he
      exact ih (k, v) (List.mem_cons_self _ rest) e1 hx
    | ok y =>
      rw [hx] at he
      cases hrest : pack_pairs rest d with
      | error e2 =>
        rw [hrest] at he
        simp only [Except.error.injEq] at he
        subst he
        exact ihr (fun q hq => ih q (List.mem_cons_of_mem _ hq)) e2 hrest
      | ok qs =>
        rw [hrest] at he
        simp at he

theorem pack_data_rest_errors (o : PyVal) (d : List (PyVal × PyVal))
    (ih : ∀ w, sizeOf w < sizeOf o → ∀ e, pack_data w d = .error e → e = .typeError) :
    ∀ e, pack_data_rest o d = .error e → e = .typeError := by
  intro e he
  cases o with
  | tuple xs =>
    rw [pack_data_rest] at he
    cases hpl : pack_list xs d with
    | error e1 =>
      rw [hpl] at he
      simp only [Except.map, Except.error.injEq] at he
      subst he
      exact pack_list_errors
        (fun x hx => ih x (by simpa using pyListElem_sizeOf hx)) e1 hpl
    | ok ys =>
      rw [hpl] at he
      simp [Except.map] at he
  | list xs =>
    rw [pack_data_rest] at he
    cases hpl : pack_list xs d with
    | error e1 =>
      rw [hpl] at he
      simp only [Except.map, Except.error.injEq] at he
      subst he
      exact pack_list_errors
        (fun x hx => ih x (by simpa using pyListElem_sizeOf hx)) e1 hpl
    | ok ys =>
      rw [hpl] at he
      simp [Except.map] at he
  | set xs =>
    rw [pack_data_rest] at he
    cases hpl : pack_list xs d with
    | error e1 =>
      rw [hpl] at he
      simp only [Except.error.injEq] at he
      subst he
      exact pack_list_errors
        (fun x hx => ih x (by simpa using pyListElem_sizeOf hx)) e1 hpl
    | ok ys =>
      rw [hpl] at he
      by_cases hys : hashableList ys = true
      · simp [hys] at he
      · simp only [Bool.not_eq_true] at hys
        simp [hys] at he
        exact he.symm
  | frozenset xs =>
    rw [pack_data_rest] at he
    cases hpl : pack_list xs d with
    | error e1 =>
      rw [hpl] at he
      simp only [Except.error.injEq] at he
      subst he
      exact pack_list_errors
        (fun x hx => ih x (by simpa using pyListElem_sizeOf hx)) e1 hpl
    | ok ys =>
      rw [hpl] at he
      by_cases hys : hashableList ys = true
      · simp [hys] at he
      · simp only [Bool.not_eq_true] at hys
        simp [hys] at he
        exact he.symm
  | dict ps =>
    rw [pack_data_rest] at he
    cases hpp : pack_pairs ps d with
    | error e1 =>
      rw [hpp] at he
      simp only [Except.map, Except.error.injEq] at he
      subst he
      exact pack_pairs_errors
        (fun p hp => ih p.2 (by simpa using pyPairSnd_sizeOf hp)) e1 hpp
    | ok qs =>
      rw [hpp] at he
      simp [Except.map] at he
  | none =>
    simp [pack_data_rest] at he
  | bool b =>
    simp [pack_data_rest] at he
  | int n =>
    simp [pack_data_rest] at he
  | str s =>
    simp [pack_data_rest] at he
  | wrapped i k =>
    simp [pack_data_rest] at he

/-- The only exception pack_data can propagate is TypeError: the membership test can
only raise TypeError (which the except clause catches), and the rebuild can only raise
the TypeError of the set and frozenset constructors. -/
theorem pack_data_errors :
    ∀ (o : PyVal) (d : List (PyVal × PyVal)) (e : PyErr),
      pack_data o d = .error e → e = .typeError := by
  intro o
  induction o using pyval_strong_ind with
  | _ w ih =>
    intro d e he
    have hrest : ∀ e, pack_data_rest w d = .error e → e = .typeError :=
      pack_data_rest_errors w d (fun u hu => ih u hu d)
    rw [pack_data] at he
    cases hh : hashable w with
    | true =>
      cases hl : pyLookup d w with
      | some v =>
        rw [show dictGet d w = .ok (some v) by simp [dictGet, hh, hl]] at he
        simp at he
      | none =>
        rw [show dictGet d w = .ok none by simp [dictGet, hh, hl]] at he
        exact hrest e he
    | false =>
      rw [show dictGet d w = .error .typeError by simp [dictGet, hh]] at he
      exact hrest e he

/-- C9 counterexample. The claim says pack_data never propagates an exception. On the
set {"x"} with the known data mapping {"x": [1]}, the membership TypeError is caught,
the element "x" is replaced by the list [1], and the rebuild set([[1]]) at the set
branch hashes the unhashable substituted list, so pack_data raises TypeError. -/
theorem c9_pack_data_set_rebuild_raises :
    pack_data (.set [.str "x"]) [(.str "x", .list [.int 1])] = .error .typeError := by
  simp [pack_data, pack_data_rest, pack_list, dictGet, hashable, hashableList,
    pyLookup, pyBeq]

/-- C9 amended. The try block of pack_data guards only the membership test, whose
TypeError it catches, so pack_data is total — it returns a value and propagates no
exception — on every input built from scalars, tuples, lists and dicts (no set or
frozenset anywhere); on every input whatsoever the only exception pack_data can
propagate is the TypeError raised by the set or frozenset constructor of the rebuild
when the known data mapping substituted an unhashable value for an element. -/
theorem c9_pack_data_amended (o : PyVal) (d : List (PyVal × PyVal)) :
    (setFree o = true → ∃ v, pack_data o d = .ok v) ∧
    (∀ e, pack_data o d = .error e → e = .typeError) :=
  ⟨fun h => pack_data_total_of_setFree o d h, pack_data_errors o d⟩

/-- C9 witness: a set free nested value with a hit in the known data mapping packs to a
value, and the error classification holds of it. -/
theorem c9_pack_data_witness :
    setFree (.list [.str "x", .int 2]) = true ∧
    (∃ v, pack_data (.list [.str "x", .int 2]) [(.str "x", .int 5)] = .ok v) ∧
    (∀ e, pack_data (.list [.str "x", .int 2]) [(.str "x", .int 5)] = .error e →
      e = .typeError) := by
  have hsf : setFree (.list [.str "x", .int 2]) = true := by
    simp [setFree, setFreeList]
  have h := c9_pack_data_amended (.list [.str "x", .int 2]) [(.str "x", .int 5)]
  exact ⟨hsf, h.1 hsf, h.2⟩

/- ------------------------------------------------------------------ -/
/- C5, C6: gather_from_workers                                         -/
/- ------------------------------------------------------------------ -/

section GatherLemmas

variable {α β : Type} [DecidableEq α]

@[simp]
theorem setInsert_mem {l : List α} {a b : α} : a ∈ setInsert l b ↔ a ∈ l ∨ a = b := by
  unfold setInsert
  split <;> rename_i h
  · constructor
    · exact Or.inl
    · rintro (h1 | rfl)
      · exact h1
      · exact h
  · simp

theorem foldl_setInsert_mem {xs : List α} :
    ∀ {l : List α} {a : α}, a ∈ xs.foldl setInsert l ↔ a ∈ l ∨ a ∈ xs := by
  induction xs with
  | nil => simp
  | cons x rest ih =>
    intro l a
    rw [List.foldl_cons, ih, setInsert_mem]
    simp only [List.mem_cons]
    tauto

theorem setInsert_nodup {l : List α} {b : α} (h : l.Nodup) : (setInsert l b).Nodup := by
  unfold setInsert
  split <;> rename_i hb
  · exact h
  · simpa [List.nodup_append] using ⟨h, hb⟩

theorem foldl_setInsert_nodup {xs : List α} :
    ∀ {l : List α}, l.Nodup → (xs.foldl setInsert l).Nodup := by
  induction xs with
  | nil => intro l h; exact h
  | cons x rest ih => intro l h; exact ih (setInsert_nodup h)

theorem alistLookup_isSome_iff {l : List (α × β)} {k : α} :
    (alistLookup l k).isSome = true ↔ k ∈ l.map Prod.fst := by
  induction l with
  | nil => simp [alistLookup]
  | cons p rest ih =>
    rw [alistLookup]
    by_cases h : p.1 = k
    · simp [h]
    · rw [if_neg h, ih]
      simp only [List.map_cons, List.mem_cons]
      constructor
      · exact Or.inr
      · rintro (rfl | hm)
        · exact absurd rfl h
        · exact hm

theorem alistLookup_isSome_of_mem {l : List (α × β)} {k : α} {b : β} (h : (k, b) ∈ l) :
    (alistLookup l k).isSome = true := by
  rw [alistLookup_isSome_iff]
  exact List.mem_map.mpr ⟨(k, b), h, rfl⟩

theorem alistLookup_eq_of_mem_nodup {l : List (α × β)} {k : α} {b : β}
    (hnd : (l.map Prod.fst).Nodup) (h : (k, b) ∈ l) : alistLookup l k = some b := by
  induction l with
  | nil => simp at h
  | cons p rest ih =>
    rw [List.map_cons, List.nodup_cons] at hnd
    rw [alistLookup]
    rcases List.mem_cons.mp h with rfl | hmem
    · simp
    · have hne : p.1 ≠ k := by
        intro he
        exact hnd.1 (he ▸ List.mem_map.mpr ⟨(k, b), hmem, rfl⟩)
      rw [if_neg hne]
      exact ih hnd.2 hmem

theorem dictSet_keys {l : List (α × β)} {k : α} {v : β} :
    (dictSet l k v).map Prod.fst =
      if (alistLookup l k).isSome then l.map Prod.fst else l.map Prod.fst ++ [k] := by
  unfold dictSet
  split <;> rename_i h
  · simp only [List.map_map]
    rw [List.map_congr_left]
    intro p _
    by_cases hp : p.1 = k <;> simp [hp]
  · simp

theorem dictSet_lookup_isSome {l : List (α × β)} {k k' : α} {v : β} :
    (alistLookup (dictSet l k v) k').isSome = true ↔
      (alistLookup l k').isSome = true ∨ k' = k := by
  rw [alistLookup_isSome_iff, dictSet_keys]
  split <;> rename_i h
  · constructor
    · intro h1
      exact Or.inl (alistLookup_isSome_iff.mpr h1)
    · rintro (h1 | rfl)
      · exact alistLookup_isSome_iff.mp h1
      · exact alistLookup_isSome_iff.mp h
  · rw [List.mem_append, List.mem_singleton, ← alistLookup_isSome_iff]

theorem dictSet_nodup_keys {l : List (α × β)} {k : α} {v : β}
    (h : (l.map Prod.fst).Nodup) : ((dictSet l k v).map Prod.fst).Nodup := by
  rw [dictSet_keys]
  split <;> rename_i hs
  · exact h
  · rw [alistLookup_isSome_iff] at hs
    refine List.Nodup.append h (List.nodup_singleton k) ?_
    intro a ha hb
    rw [List.mem_singleton] at hb
    exact hs (hb ▸ ha)

theorem respFold_lookup_isSome {r : List (α × β)} :
    ∀ {dd : List (α × β)} {k : α},
      (alistLookup (r.foldl (fun dd kv => dictSet dd kv.1 kv.2) dd) k).isSome = true ↔
        (alistLookup dd k).isSome = true ∨ k ∈ r.map Prod.fst := by
  induction r with
  | nil => simp
  | cons kv rest ih =>
    intro dd k
    rw [List.foldl_cons, ih, dictSet_lookup_isSome]
    simp only [List.map_cons, List.mem_cons]
    tauto

theorem respFold_nodup_keys {r : List (α × β)} :
    ∀ {dd : List (α × β)}, (dd.map Prod.fst).Nodup →
      ((r.foldl (fun dd kv => dictSet dd kv.1 kv.2) dd).map Prod.fst).Nodup := by
  induction r with
  | nil => intro dd h; exact h
  | cons kv rest ih => intro dd h; exact ih (dictSet_nodup_keys h)

theorem nodup_subset_length_le :
    ∀ {l l' : List α}, l.Nodup → (∀ x ∈ l, x ∈ l') → l.length ≤ l'.length := by
  intro l
  induction l with
  | nil => intro l' _ _; simp
  | cons a t ih =>
    intro l' hnd hsub
    rw [List.nodup_cons] at hnd
    have ha : a ∈ l' := hsub a (List.mem_cons_self a t)
    have ht : ∀ x ∈ t, x ∈ l'.erase a := by
      intro x hx
      have hne : x ≠ a := fun he => hnd.1 (he ▸ hx)
      exact (List.mem_erase_of_ne hne).mpr (hsub x (List.mem_cons_of_mem _ hx))
    have h1 := ih hnd.2 ht
    have hlen := List.length_erase_of_mem ha
    have hpos : 0 < l'.length := List.length_pos.mpr (List.ne_nil_of_mem ha)
    simp only [List.length_cons]
    omega

end GatherLemmas

section GatherLemmas2

variable {K A V : Type} [DecidableEq K] [DecidableEq A]

theorem mem_candidatePool {bad : List A} {as : List A} {a : A} :
    a ∈ candidatePool bad as ↔ a ∈ as ∧ a ∉ bad := by
  unfold candidatePool
  rw [List.mem_filter]
  simp

theorem candidatePool_cons {bad : List A} {x : A} {t : List A} :
    candidatePool bad (x :: t) =
      if x ∈ bad then candidatePool bad t else x :: candidatePool bad t := by
  unfold candidatePool
  rw [List.filter_cons]
  by_cases h : x ∈ bad
  · simp [h]
  · simp [h]

theorem candidatePool_eq_nil_iff {bad : List A} {as : List A} :
    candidatePool bad as = [] ↔ ∀ a ∈ as, a ∈ bad := by
  constructor
  · intro h a ha
    by_contra hb
    have : a ∈ candidatePool bad as := mem_candidatePool.mpr ⟨ha, hb⟩
    rw [h] at this
    exact absurd this (List.not_mem_nil a)
  · induction as with
    | nil => intro _; rfl
    | cons x t ih =>
      intro h
      rw [candidatePool_cons, if_pos (h x (List.mem_cons_self x t))]
      exact ih (fun a ha => h a (List.mem_cons_of_mem _ ha))

theorem candidatePool_length_le {bad bad' : List A} {as : List A}
    (hsub : ∀ x ∈ bad, x ∈ bad') :
    (candidatePool bad' as).length ≤ (candidatePool bad as).length := by
  induction as with
  | nil => simp [candidatePool]
  | cons x t ih =>
    rw [candidatePool_cons, candidatePool_cons]
    by_cases h2 : x ∈ bad'
    · rw [if_pos h2]
      by_cases h1 : x ∈ bad
      · rw [if_pos h1]
        exact ih
      · rw [if_neg h1]
        simp only [List.length_cons]
        omega
    · have h1 : x ∉ bad := fun hx => h2 (hsub x hx)
      rw [if_neg h2, if_neg h1]
      simp only [List.length_cons]
      omega

theorem candidatePool_length_lt {bad bad' : List A} {as : List A} {c : A}
    (hsub : ∀ x ∈ bad, x ∈ bad') (hc : c ∈ as) (hc1 : c ∉ bad) (hc2 : c ∈ bad') :
    (candidatePool bad' as).length < (candidatePool bad as).length := by
  induction as with
  | nil => simp at hc
  | cons x t ih =>
    rw [candidatePool_cons, candidatePool_cons]
    rcases List.mem_cons.mp hc with rfl | hct
    · rw [if_pos hc2, if_neg hc1]
      have hle : (candidatePool bad' t).length ≤ (candidatePool bad t).length :=
        candidatePool_length_le hsub
      simp only [List.length_cons]
      omega
    · have hlt := ih hct
      by_cases h2 : x ∈ bad'
      · rw [if_pos h2]
        by_cases h1 : x ∈ bad
        · rw [if_pos h1]
          exact hlt
        · rw [if_neg h1]
          simp only [List.length_cons]
          omega
      · have h1 : x ∉ bad := fun hx => h2 (hsub x hx)
        rw [if_neg h2, if_neg h1]
        simp only [List.length_cons]
        omega

theorem mem_revPass {whoHas : List (K × List A)} {st : GatherState K A V}
    {choice : List A → A} {k : K} {a : A} :
    (k, a) ∈ revPass whoHas st choice ↔
      ∃ as, (k, as) ∈ whoHas ∧ (alistLookup st.results k).isSome = false ∧
        candidatePool st.badAddresses as ≠ [] ∧
        a = choice (candidatePool st.badAddresses as) := by
  unfold revPass
  rw [List.mem_filterMap]
  constructor
  · rintro ⟨p, hp, hfp⟩
    by_cases h1 : (alistLookup st.results p.1).isSome
    · simp [h1] at hfp
    · by_cases h2 : (candidatePool st.badAddresses p.2).isEmpty
      · simp [h1, h2] at hfp
      · simp only [h1, Bool.false_eq_true, if_false, h2, if_false,
          Option.some.injEq, Prod.mk.injEq] at hfp
        obtain ⟨rfl, rfl⟩ := hfp
        exact ⟨p.2, by simpa using hp, by simpa using h1,
          by simpa [List.isEmpty_iff] using h2, rfl⟩
  · rintro ⟨as, hmem, hres, hpool, rfl⟩
    refine ⟨(k, as), hmem, ?_⟩
    simp [hres, List.isEmpty_iff, hpool]

theorem mem_badKeysPass {whoHas : List (K × List A)} {st : GatherState K A V} {k : K} :
    k ∈ badKeysPass whoHas st ↔
      ∃ as, (k, as) ∈ whoHas ∧ (alistLookup st.results k).isSome = false ∧
        candidatePool st.badAddresses as = [] := by
  unfold badKeysPass
  rw [List.mem_filterMap]
  constructor
  · rintro ⟨p, hp, hfp⟩
    by_cases h1 : (alistLookup st.results p.1).isSome
    · simp [h1] at hfp
    · by_cases h2 : (candidatePool st.badAddresses p.2).isEmpty
      · simp only [h1, Bool.false_eq_true, if_false, h2, if_true,
          Option.some.injEq] at hfp
        subst hfp
        exact ⟨p.2, by simpa using hp, by simpa using h1,
          by simpa [List.isEmpty_iff] using h2⟩
      · simp [h1, h2] at hfp
  · rintro ⟨as, hmem, hres, hpool⟩
    refine ⟨(k, as), hmem, ?_⟩
    simp [hres, List.isEmpty_iff, hpool]

theorem batches_sound {rev : List (K × A)} :
    ∀ p ∈ batchesOf rev, ∀ k ∈ p.2, (k, p.1) ∈ rev := by
  have main : ∀ (l acc : List _), (∀ q ∈ l, q ∈ rev) →
      (∀ p ∈ acc, ∀ k ∈ p.2, (k, p.1) ∈ rev) →
      ∀ p ∈ l.foldl (fun acc (q : K × A) => bucketAdd acc q.2 q.1) acc,
        ∀ k ∈ p.2, (k, p.1) ∈ rev := by
    intro l
    induction l with
    | nil => intro acc _ hacc; exact hacc
    | cons q rest ih =>
      intro acc hl hacc
      rw [List.foldl_cons]
      refine ih _ (fun q' hq' => hl q' (List.mem_cons_of_mem _ hq')) ?_
      intro p hp k hk
      unfold bucketAdd at hp
      split at hp <;> rename_i hcase
      · rcases List.mem_map.mp hp with ⟨p0, hp0, hfp0⟩
        by_cases he : p0.1 = q.2
        · rw [if_pos he] at hfp0
          subst hfp0
          simp only at hk
          rcases List.mem_append.mp hk with hk1 | hk2
          · exact hacc p0 hp0 k hk1
          · rw [List.mem_singleton] at hk2
            subst hk2
            show (q.1, p0.1) ∈ rev
            rw [he]
            simpa using hl q (List.mem_cons_self q rest)
        · rw [if_neg he] at hfp0
          subst hfp0
          exact hacc p0 hp0 k hk
      · rcases List.mem_append.mp hp with hp1 | hp2
        · exact hacc p hp1 k hk
        · rw [List.mem_singleton] at hp2
          subst hp2
          rw [List.mem_singleton] at hk
          subst hk
          exact hl q (List.mem_cons_self q rest)
  intro p hp
  exact main rev [] (fun q hq => hq) (by simp) p hp

theorem fetchPass_resp_sound {fetchi : A → List K → Option (List (K × V))}
    (hf : ∀ a ks r, fetchi a ks = some r → ∀ kv ∈ r, kv.1 ∈ ks)
    {d : List (A × List K)} :
    ∀ {acc : List (K × V) × List A} {k : K},
      (alistLookup (d.foldl (fun acc p =>
          match fetchi p.1 p.2 with
          | none => (acc.1, setInsert acc.2 p.1)
          | some r => (r.foldl (fun dd kv => dictSet dd kv.1 kv.2) acc.1, acc.2)) acc).1
        k).isSome = true →
      (alistLookup acc.1 k).isSome = true ∨ ∃ p ∈ d, k ∈ p.2 := by
  induction d with
  | nil => intro acc k h; exact Or.inl h
  | cons p rest ih =>
    intro acc k h
    rw [List.foldl_cons] at h
    rcases ih h with h1 | ⟨q, hq, hkq⟩
    · cases hfp : fetchi p.1 p.2 with
      | none =>
        rw [hfp] at h1
        exact Or.inl h1
      | some r =>
        rw [hfp] at h1
        simp only at h1
        rcases respFold_lookup_isSome.mp h1 with h2 | h2
        · exact Or.inl h2
        · rcases List.mem_map.mp h2 with ⟨kv, hkv, rfl⟩
          exact Or.inr ⟨p, List.mem_cons_self p rest, hf p.1 p.2 r hfp kv hkv⟩
    · exact Or.inr ⟨q, List.mem_cons_of_mem _ hq, hkq⟩

/-- A key of the merged response was requested from some address that rev chose for it. -/
theorem response_key_from_rev {whoHas : List (K × List A)} {st : GatherState K A V}
    {choice : List A → A} {fetchi : A → List K → Option (List (K × V))}
    (hf : ∀ a ks r, fetchi a ks = some r → ∀ kv ∈ r, kv.1 ∈ ks) {k : K}
    (h : (alistLookup (fetchPass fetchi (batchesOf (revPass whoHas st choice))
        st.missingWorkers).1 k).isSome = true) :
    ∃ a, (k, a) ∈ revPass whoHas st choice := by
  unfold fetchPass at h
  rcases fetchPass_resp_sound hf h with h1 | ⟨p, hp, hkp⟩
  · simp [alistLookup] at h1
  · exact ⟨p.1, batches_sound p hp k hkp⟩

end GatherLemmas2

section GatherLemmas3

variable {K A V : Type} [DecidableEq K] [DecidableEq A]

theorem gatherIter_results (whoHas : List (K × List A)) (choice : List A → A)
    (fetchi : A → List K → Option (List (K × V))) (st : GatherState K A V) :
    (gatherIter whoHas choice fetchi st).results =
      (fetchPass fetchi (batchesOf (revPass whoHas st choice))
          st.missingWorkers).1.foldl (fun dd kv => dictSet dd kv.1 kv.2) st.results := rfl

theorem gatherIter_allBadKeys (whoHas : List (K × List A)) (choice : List A → A)
    (fetchi : A → List K → Option (List (K × V))) (st : GatherState K A V) :
    (gatherIter whoHas choice fetchi st).allBadKeys =
      (badKeysPass whoHas st).foldl setInsert st.allBadKeys := rfl

theorem gatherIter_badAddresses (whoHas : List (K × List A)) (choice : List A → A)
    (fetchi : A → List K → Option (List (K × V))) (st : GatherState K A V) :
    (gatherIter whoHas choice fetchi st).badAddresses =
      ((revPass whoHas st choice).filterMap (fun p =>
          if (alistLookup (fetchPass fetchi (batchesOf (revPass whoHas st choice))
              st.missingWorkers).1 p.1).isSome then none else some p.2)).foldl
        setInsert st.badAddresses := rfl

theorem gatherIter_badAddr_mono {whoHas : List (K × List A)} {choice : List A → A}
    {fetchi : A → List K → Option (List (K × V))} {st : GatherState K A V} {a : A}
    (h : a ∈ st.badAddresses) :
    a ∈ (gatherIter whoHas choice fetchi st).badAddresses := by
  rw [gatherIter_badAddresses]
  exact foldl_setInsert_mem.mpr (Or.inl h)

theorem gatherIter_inv {whoHas : List (K × List A)} {choice : List A → A}
    {fetchi : A → List K → Option (List (K × V))} {st : GatherState K A V}
    (hwho : (whoHas.map Prod.fst).Nodup)
    (hf : ∀ a ks r, fetchi a ks = some r → ∀ kv ∈ r, kv.1 ∈ ks)
    (hinv : GatherInv whoHas st) :
    GatherInv whoHas (gatherIter whoHas choice fetchi st) := by
  constructor
  · rw [gatherIter_results]
    exact respFold_nodup_keys hinv.nodupRes
  · rw [gatherIter_allBadKeys]
    exact foldl_setInsert_nodup hinv.nodupBad
  · intro k hk
    rw [gatherIter_results] at hk
    rcases respFold_lookup_isSome.mp hk with h1 | h2
    · exact hinv.resSub k h1
    · obtain ⟨a, ha⟩ := response_key_from_rev hf (alistLookup_isSome_iff.mpr h2)
      obtain ⟨as, hmem, _, _, _⟩ := mem_revPass.mp ha
      exact alistLookup_isSome_of_mem hmem
  · intro k hk
    rw [gatherIter_allBadKeys] at hk
    rcases foldl_setInsert_mem.mp hk with h1 | h2
    · exact hinv.badSub k h1
    · obtain ⟨as, hmem, _, _⟩ := mem_badKeysPass.mp h2
      exact alistLookup_isSome_of_mem hmem
  · intro k hk
    rw [gatherIter_allBadKeys] at hk
    rw [gatherIter_results]
    by_contra hx
    rw [Bool.not_eq_false] at hx
    rcases respFold_lookup_isSome.mp hx with h1 | h2
    · rcases foldl_setInsert_mem.mp hk with hk1 | hk2
      · rw [hinv.badNotRes k hk1] at h1
        exact absurd h1 (by simp)
      · obtain ⟨as, hmem, hres, _⟩ := mem_badKeysPass.mp hk2
        rw [hres] at h1
        exact absurd h1 (by simp)
    · obtain ⟨a, ha⟩ := response_key_from_rev hf (alistLookup_isSome_iff.mpr h2)
      obtain ⟨as, hmem, hres0, hpool, _⟩ := mem_revPass.mp ha
      have hlook : alistLookup whoHas k = some as := alistLookup_eq_of_mem_nodup hwho hmem
      rcases foldl_setInsert_mem.mp hk with hk1 | hk2
      · have hbp := hinv.badPool k hk1
        rw [hlook] at hbp
        exact hpool (by simpa using hbp)
      · obtain ⟨as', hmem', _, hpool'⟩ := mem_badKeysPass.mp hk2
        have hlook' : alistLookup whoHas k = some as' :=
          alistLookup_eq_of_mem_nodup hwho hmem'
        rw [hlook] at hlook'
        injection hlook' with he
        exact hpool (he ▸ hpool')
  · intro k hk
    rw [gatherIter_allBadKeys] at hk
    have hmono : ∀ x ∈ st.badAddresses,
        x ∈ (gatherIter whoHas choice fetchi st).badAddresses :=
      fun x hx => gatherIter_badAddr_mono hx
    rcases foldl_setInsert_mem.mp hk with hk1 | hk2
    · have hbp := hinv.badPool k hk1
      exact candidatePool_eq_nil_iff.mpr
        (fun a ha => hmono a (candidatePool_eq_nil_iff.mp hbp a ha))
    · obtain ⟨as', hmem', _, hpool'⟩ := mem_badKeysPass.mp hk2
      have hlook' : alistLookup whoHas k = some as' :=
        alistLookup_eq_of_mem_nodup hwho hmem'
      rw [hlook']
      exact candidatePool_eq_nil_iff.mpr
        (fun a ha => hmono a (candidatePool_eq_nil_iff.mp hpool' a ha))

theorem keyWeight_iter_le {whoHas : List (K × List A)} {choice : List A → A}
    {fetchi : A → List K → Option (List (K × V))} {st : GatherState K A V}
    (p : K × List A) :
    keyWeight (gatherIter whoHas choice fetchi st) p ≤ keyWeight st p := by
  unfold keyWeight
  by_cases hc : ((alistLookup st.results p.1).isSome
      || decide (p.1 ∈ st.allBadKeys)) = true
  · have hc2 : ((alistLookup (gatherIter whoHas choice fetchi st).results p.1).isSome
        || decide (p.1 ∈ (gatherIter whoHas choice fetchi st).allBadKeys)) = true := by
      rw [Bool.or_eq_true]
      rw [Bool.or_eq_true] at hc
      rcases hc with h1 | h1
      · refine Or.inl ?_
        rw [gatherIter_results]
        exact respFold_lookup_isSome.mpr (Or.inl h1)
      · refine Or.inr ?_
        rw [gatherIter_allBadKeys]
        exact decide_eq_true
          (foldl_setInsert_mem.mpr (Or.inl (of_decide_eq_true h1)))
    rw [if_pos hc, if_pos hc2]
  · rw [if_neg hc]
    by_cases hc2 : ((alistLookup (gatherIter whoHas choice fetchi st).results p.1).isSome
        || decide (p.1 ∈ (gatherIter whoHas choice fetchi st).allBadKeys)) = true
    · rw [if_pos hc2]
      exact Nat.zero_le _
    · rw [if_neg hc2]
      have hle : (candidatePool (gatherIter whoHas choice fetchi st).badAddresses
          p.2).length ≤ (candidatePool st.badAddresses p.2).length :=
        candidatePool_length_le (fun x hx => gatherIter_badAddr_mono hx)
      omega

theorem guard_exists_missing {whoHas : List (K × List A)} {st : GatherState K A V}
    (hwho : (whoHas.map Prod.fst).Nodup) (hinv : GatherInv whoHas st)
    (hguard : gatherGuard whoHas st = true) :
    ∃ p ∈ whoHas, (alistLookup st.results p.1).isSome = false ∧
      p.1 ∉ st.allBadKeys := by
  by_contra hall
  push_neg at hall
  have hsub : ∀ x ∈ whoHas.map Prod.fst,
      x ∈ st.results.map Prod.fst ++ st.allBadKeys := by
    intro x hx
    rcases List.mem_map.mp hx with ⟨p, hp, rfl⟩
    rw [List.mem_append]
    by_cases hr : (alistLookup st.results p.1).isSome = true
    · exact Or.inl (alistLookup_isSome_iff.mp hr)
    · right
      exact hall p hp (by simpa using hr)
  have hnd : (st.results.map Prod.fst ++ st.allBadKeys).Nodup := by
    refine List.Nodup.append hinv.nodupRes hinv.nodupBad ?_
    intro a ha hb
    have h1 : (alistLookup st.results a).isSome = true := alistLookup_isSome_iff.mpr ha
    rw [hinv.badNotRes a hb] at h1
    exact absurd h1 (by simp)
  have hlen := nodup_subset_length_le hwho hsub
  unfold gatherGuard at hguard
  rw [decide_eq_true_eq] at hguard
  rw [List.length_map, List.length_append, List.length_map] at hlen
  omega

theorem keyWeight_iter_lt_of_missing {whoHas : List (K × List A)} {choice : List A → A}
    {fetchi : A → List K → Option (List (K × V))} {st : GatherState K A V}
    (hwho : (whoHas.map Prod.fst).Nodup)
    (hchoice : ∀ l, l ≠ [] → choice l ∈ l)
    {p : K × List A} (hp : p ∈ whoHas)
    (hres : (alistLookup st.results p.1).isSome = false)
    (hbad : p.1 ∉ st.allBadKeys) :
    keyWeight (gatherIter whoHas choice fetchi st) p < keyWeight st p := by
  have hw : keyWeight st p = (candidatePool st.badAddresses p.2).length + 1 := by
    unfold keyWeight
    rw [if_neg]
    simp [hres, hbad]
  cases hpool : candidatePool st.badAddresses p.2 with
  | nil =>
    have hpmem : (p.1, p.2) ∈ whoHas := by simpa using hp
    have hbk : p.1 ∈ badKeysPass whoHas st :=
      mem_badKeysPass.mpr ⟨p.2, hpmem, hres, hpool⟩
    have hin : p.1 ∈ (gatherIter whoHas choice fetchi st).allBadKeys := by
      rw [gatherIter_allBadKeys]
      exact foldl_setInsert_mem.mpr (Or.inr hbk)
    have hz : keyWeight (gatherIter whoHas choice fetchi st) p = 0 := by
      unfold keyWeight
      rw [if_pos]
      simp [hin]
    omega
  | cons c rest =>
    have hpmem : (p.1, p.2) ∈ whoHas := by simpa using hp
    have hne : candidatePool st.badAddresses p.2 ≠ [] := by simp [hpool]
    have hrev : (p.1, choice (candidatePool st.badAddresses p.2)) ∈
        revPass whoHas st choice :=
      mem_revPass.mpr ⟨p.2, hpmem, hres, hne, rfl⟩
    have ha0pool : choice (candidatePool st.badAddresses p.2) ∈
        candidatePool st.badAddresses p.2 := hchoice _ hne
    obtain ⟨ha0as, ha0notbad⟩ := mem_candidatePool.mp ha0pool
    by_cases hresp : (alistLookup (fetchPass fetchi (batchesOf
        (revPass whoHas st choice)) st.missingWorkers).1 p.1).isSome = true
    · have hin : (alistLookup (gatherIter whoHas choice fetchi st).results p.1).isSome
          = true := by
        rw [gatherIter_results]
        exact respFold_lookup_isSome.mpr (Or.inr (alistLookup_isSome_iff.mp hresp))
      have hz : keyWeight (gatherIter whoHas choice fetchi st) p = 0 := by
        unfold keyWeight
        rw [if_pos]
        simp [hin]
      omega
    · have ha0bad : choice (candidatePool st.badAddresses p.2) ∈
          (gatherIter whoHas choice fetchi st).badAddresses := by
        rw [gatherIter_badAddresses]
        refine foldl_setInsert_mem.mpr (Or.inr ?_)
        refine List.mem_filterMap.mpr ⟨(p.1, choice (candidatePool st.badAddresses p.2)),
          hrev, ?_⟩
        simp only [hresp, Bool.false_eq_true, if_false]
      have hmono2 : ∀ x ∈ st.badAddresses,
          x ∈ (gatherIter whoHas choice fetchi st).badAddresses :=
        fun x hx => gatherIter_badAddr_mono hx
      have hlt := candidatePool_length_lt hmono2 ha0as ha0notbad ha0bad
      rw [hw]
      unfold keyWeight
      split
      · omega
      · omega

theorem gatherIter_measure_lt {whoHas : List (K × List A)} {choice : List A → A}
    {fetchi : A → List K → Option (List (K × V))} {st : GatherState K A V}
    (hwho : (whoHas.map Prod.fst).Nodup)
    (hchoice : ∀ l, l ≠ [] → choice l ∈ l)
    (hinv : GatherInv whoHas st)
    (hguard : gatherGuard whoHas st = true) :
    gatherMeasure whoHas (gatherIter whoHas choice fetchi st) <
      gatherMeasure whoHas st := by
  obtain ⟨p, hp, hres, hbad⟩ := guard_exists_missing hwho hinv hguard
  unfold gatherMeasure
  exact List.sum_lt_sum _ _ (fun q _ => keyWeight_iter_le q)
    ⟨p, hp, keyWeight_iter_lt_of_missing hwho hchoice hp hres hbad⟩

end GatherLemmas3

section GatherMain

variable {K A V : Type} [DecidableEq K] [DecidableEq A]

theorem gatherLoop_total {whoHas : List (K × List A)} {choice : List A → A}
    {fetch : Nat → A → List K → Option (List (K × V))}
    (hwho : (whoHas.map Prod.fst).Nodup)
    (hchoice : ∀ l, l ≠ [] → choice l ∈ l)
    (hfetch : ∀ i a ks r, fetch i a ks = some r → ∀ kv ∈ r, kv.1 ∈ ks) :
    ∀ (fuel i : Nat) (st : GatherState K A V), GatherInv whoHas st →
      gatherMeasure whoHas st < fuel →
      ∃ fin, gatherLoop whoHas choice fetch fuel i st = some fin ∧
        GatherInv whoHas fin ∧ gatherGuard whoHas fin = false := by
  intro fuel
  induction fuel with
  | zero => intro i st _ hm; omega
  | succ f ih =>
    intro i st hinv hm
    rw [gatherLoop]
    cases hg : gatherGuard whoHas st with
    | false =>
      rw [if_neg (by simp [hg])]
      exact ⟨st, rfl, hinv, hg⟩
    | true =>
      rw [if_pos (by simp [hg])]
      have hinv' : GatherInv whoHas (gatherIter whoHas choice (fetch i) st) :=
        gatherIter_inv hwho (hfetch i) hinv
      have hm' : gatherMeasure whoHas (gatherIter whoHas choice (fetch i) st) <
          gatherMeasure whoHas st :=
        gatherIter_measure_lt hwho hchoice hinv hg
      exact ih (i + 1) (gatherIter whoHas choice (fetch i) st) hinv' (by omega)

theorem gather_exit_count {whoHas : List (K × List A)} {st : GatherState K A V}
    (hwho : (whoHas.map Prod.fst).Nodup) (hinv : GatherInv whoHas st)
    (hg : gatherGuard whoHas st = false) :
    st.results.length + st.allBadKeys.length = whoHas.length := by
  have hge : whoHas.length ≤ st.results.length + st.allBadKeys.length := by
    unfold gatherGuard at hg
    rw [decide_eq_false_iff_not] at hg
    omega
  have hsub : ∀ x ∈ st.results.map Prod.fst ++ st.allBadKeys,
      x ∈ whoHas.map Prod.fst := by
    intro x hx
    rcases List.mem_append.mp hx with h1 | h2
    · exact alistLookup_isSome_iff.mp
        (hinv.resSub x (alistLookup_isSome_iff.mpr h1))
    · exact alistLookup_isSome_iff.mp (hinv.badSub x h2)
  have hnd : (st.results.map Prod.fst ++ st.allBadKeys).Nodup := by
    refine List.Nodup.append hinv.nodupRes hinv.nodupBad ?_
    intro a ha hb
    have h1 : (alistLookup st.results a).isSome = true := alistLookup_isSome_iff.mpr ha
    rw [hinv.badNotRes a hb] at h1
    exact absurd h1 (by simp)
  have hlen := nodup_subset_length_le hnd hsub
  rw [List.length_append, List.length_map, List.length_map] at hlen
  omega

/-- C5. Under the interface assumptions on the oracles — random.choice picks an element
of a nonempty list, and a fetch response only binds requested keys — gather_from_workers
terminates on every who_has dict and every pattern of fetch outcomes (its fueled loop
never runs out), and at exit the number of resolved keys plus the number of unobtainable
keys equals the number of requested keys: every still missing key of an iteration is
resolved, or has its chosen address marked bad (strictly shrinking its candidate pool),
or is recorded unobtainable once its pool is empty, so a measure strictly decreases. -/
theorem c5_gather_terminates {K A V : Type} [DecidableEq K] [DecidableEq A]
    (whoHas : List (K × List A)) (choice : List A → A)
    (fetch : Nat → A → List K → Option (List (K × V)))
    (hwho : (whoHas.map Prod.fst).Nodup)
    (hchoice : ∀ l, l ≠ [] → choice l ∈ l)
    (hfetch : ∀ i a ks r, fetch i a ks = some r → ∀ kv ∈ r, kv.1 ∈ ks) :
    ∃ res bad missing,
      gather_from_workers whoHas choice fetch = some (res, bad, missing) ∧
      res.length + bad.length = whoHas.length := by
  have hinv0 : GatherInv whoHas (initGatherState : GatherState K A V) := by
    constructor <;> simp [initGatherState, alistLookup]
  obtain ⟨fin, hloop, hinv, hg⟩ := gatherLoop_total hwho hchoice hfetch
    (gatherMeasure whoHas (initGatherState : GatherState K A V) + 1) 0
    initGatherState hinv0 (by omega)
  refine ⟨fin.results, fin.allBadKeys.map (fun k => (k, (alistLookup whoHas k).getD [])),
    fin.missingWorkers, ?_, ?_⟩
  · unfold gather_from_workers
    rw [hloop]
  · rw [List.length_map]
    exact gather_exit_count hwho hinv hg

/-- C5 witness: a single key with a single candidate address and a fetch oracle that
returns every requested key resolves everything in one pass. -/
theorem c5_gather_witness :
    ∃ res bad missing,
      gather_from_workers [((0 : Nat), [(5 : Nat)])] (fun l => l.headD 0)
        (fun _ _ ks => some (ks.map (fun k => (k, (0 : Nat))))) =
        some (res, bad, missing) ∧
      res.length + bad.length = 1 := by
  have h := c5_gather_terminates [((0 : Nat), [(5 : Nat)])] (fun l => l.headD 0)
    (fun _ _ ks => some (ks.map (fun k => (k, (0 : Nat)))))
    (by decide)
    (fun l hl => by
      cases l with
      | nil => exact absurd rfl hl
      | cons a t => exact List.mem_cons_self a t)
    (by
      intro i a ks r hr kv hkv
      simp only [Option.some.injEq] at hr
      subst hr
      obtain ⟨k, hk, rfl⟩ := List.mem_map.mp hkv
      simpa using hk)
  exact h

end GatherMain

section GatherUnreachable

variable {K A V : Type} [DecidableEq K] [DecidableEq A]

theorem gatherLoop_unreachable (k : K) (as : List A) (choice : List A → A)
    (fetch : Nat → A → List K → Option (List (K × V)))
    (hchoice : ∀ l, l ≠ [] → choice l ∈ l)
    (hfetch : ∀ i a ks, a ∈ as → fetch i a ks = none) :
    ∀ (fuel i : Nat) (allBad : List K) (badA : List A),
      (allBad = [] ∨ (allBad = [k] ∧ candidatePool badA as = [])) →
      (candidatePool badA as).length < fuel →
      ∃ finA, gatherLoop [(k, as)] choice fetch fuel i
          (⟨[], allBad, badA, badA⟩ : GatherState K A V) =
          some ⟨[], [k], finA, finA⟩ ∧
        (∀ a ∈ as, a ∈ finA) ∧ (∀ a ∈ finA, a ∈ as ∨ a ∈ badA) := by
  intro fuel
  induction fuel with
  | zero => intro i allBad badA _ hm; omega
  | succ f ih =>
    intro i allBad badA hcase hm
    rw [gatherLoop]
    rcases hcase with rfl | ⟨rfl, hpool⟩
    · rw [if_pos (by simp [gatherGuard])]
      by_cases hpool : candidatePool badA as = []
      · have hst' : gatherIter [(k, as)] choice (fetch i)
            (⟨[], [], badA, badA⟩ : GatherState K A V) =
            ⟨[], [k], badA, badA⟩ := by
          simp [gatherIter, revPass, badKeysPass, batchesOf, fetchPass, alistLookup,
            hpool, setInsert, List.isEmpty_iff]
        rw [hst', gatherLoop.eq_def, if_neg (by simp [gatherGuard])]
        exact ⟨badA, rfl, fun a ha => candidatePool_eq_nil_iff.mp hpool a ha,
          fun a ha => Or.inr ha⟩
      · have ha0pool : choice (candidatePool badA as) ∈ candidatePool badA as :=
          hchoice _ hpool
        obtain ⟨ha0as, ha0notbad⟩ := mem_candidatePool.mp ha0pool
        have hfc : fetch i (choice (candidatePool badA as)) [k] = none :=
          hfetch i _ [k] ha0as
        have hst' : gatherIter [(k, as)] choice (fetch i)
            (⟨[], [], badA, badA⟩ : GatherState K A V) =
            ⟨[], [], setInsert badA (choice (candidatePool badA as)),
              setInsert badA (choice (candidatePool badA as))⟩ := by
          simp [gatherIter, revPass, badKeysPass, batchesOf, fetchPass, alistLookup,
            hpool, List.isEmpty_iff, bucketAdd, hfc]
        rw [hst']
        have hlt : (candidatePool (setInsert badA (choice (candidatePool badA as)))
            as).length < (candidatePool badA as).length :=
          candidatePool_length_lt (fun x hx => setInsert_mem.mpr (Or.inl hx))
            ha0as ha0notbad (setInsert_mem.mpr (Or.inr rfl))
        obtain ⟨finA, hloop, hsub1, hsub2⟩ := ih (i + 1) []
          (setInsert badA (choice (candidatePool badA as))) (Or.inl rfl) (by omega)
        refine ⟨finA, hloop, hsub1, ?_⟩
        intro a ha
        rcases hsub2 a ha with h1 | h2
        · exact Or.inl h1
        · rcases setInsert_mem.mp h2 with h3 | rfl
          · exact Or.inr h3
          · exact Or.inl ha0as
    · rw [if_neg (by simp [gatherGuard])]
      exact ⟨badA, rfl, fun a ha => candidatePool_eq_nil_iff.mp hpool a ha,
        fun a ha => Or.inr ha⟩

/-- C6. When every candidate address of a requested key answers every fetch with a
connectivity error, gather_from_workers does not raise: it terminates and returns the
key in the unobtainable mapping paired with its original candidate address list, and the
returned list of unreachable workers consists exactly of the (tried and) failing
candidate addresses. -/
theorem c6_gather_unreachable_key (k : K) (as : List A) (choice : List A → A)
    (fetch : Nat → A → List K → Option (List (K × V)))
    (hchoice : ∀ l, l ≠ [] → choice l ∈ l)
    (hfetch : ∀ i a ks, a ∈ as → fetch i a ks = none) :
    ∃ missing, gather_from_workers [(k, as)] choice fetch =
        some (([] : List (K × V)), [(k, as)], missing) ∧
      ∀ a, a ∈ missing ↔ a ∈ as := by
  have hm : gatherMeasure [(k, as)] (initGatherState : GatherState K A V) =
      (candidatePool ([] : List A) as).length + 1 := by
    simp [gatherMeasure, keyWeight, initGatherState, alistLookup]
  obtain ⟨finA, hloop, hsub1, hsub2⟩ := gatherLoop_unreachable k as choice fetch
    hchoice hfetch
    (gatherMeasure [(k, as)] (initGatherState : GatherState K A V) + 1) 0 [] []
    (Or.inl rfl) (by omega)
  refine ⟨finA, ?_, ?_⟩
  · unfold gather_from_workers
    have hloop' : gatherLoop [(k, as)] choice fetch
        (gatherMeasure [(k, as)] (initGatherState : GatherState K A V) + 1) 0
        (initGatherState : GatherState K A V) =
        some ⟨[], [k], finA, finA⟩ := hloop
    rw [hloop']
    simp [alistLookup]
  · intro a
    constructor
    · intro ha
      rcases hsub2 a ha with h1 | h2
      · exact h1
      · exact absurd h2 (List.not_mem_nil a)
    · exact hsub1 a

/-- C6 witness: one key whose sole candidate address 5 always raises: the key comes back
unobtainable with its original candidate list [5] and address 5 is reported missing. -/
theorem c6_gather_witness :
    ∃ missing, gather_from_workers [((0 : Nat), [(5 : Nat)])] (fun l => l.headD 0)
        (fun _ _ _ => (none : Option (List (Nat × Nat)))) =
        some ([], [(0, [5])], missing) ∧
      ∀ a, a ∈ missing ↔ a ∈ [(5 : Nat)] := by
  exact c6_gather_unreachable_key 0 [5] (fun l => l.headD 0) (fun _ _ _ => none)
    (fun l hl => by
      cases l with
      | nil => exact absurd rfl hl
      | cons a t => exact List.mem_cons_self a t)
    (fun _ _ _ _ => rfl)

end GatherUnreachable
